import Mathlib

set_option allowUnsafeReducibility true
attribute [local semireducible] Rat.add Rat.mul Rat.sub Rat.div Rat.neg Rat.blt
  Rat.normalize Rat.maybeNormalize Rat.inv Rat.floor

/-!
Verification development for the dev-feed repository.

The TypeScript sources are shallowly embedded: numbers that the code uses
as real arithmetic are rationals, millisecond timestamps are integers,
fallible platform operations (date parsing, URL parsing) are `Option`
valued, and the JavaScript `Map` objects are insertion-ordered association
lists.  Each namespace below corresponds to one source file.
-/

namespace DevFeed

/-! ## JavaScript string primitives

Small executable models of the JavaScript string operations used by the
sources: the whitespace class of the regexp escape sequence matching
whitespace, trimming, collapsing whitespace runs, lowercasing and substring
search.  ASCII-centric inputs are the ones the repository handles. -/

/-- Model of the JavaScript whitespace character class (space, tab, newline,
carriage return, vertical tab, form feed, no-break space). -/
def isJsWs (c : Char) : Bool :=
  c == ' ' || c == '\t' || c == '\n' || c == '\r' || c == '\x0b' ||
    c == '\x0c' || c == ' '

/-- Drop leading and trailing JavaScript whitespace from a character list. -/
def jsTrimList (l : List Char) : List Char :=
  ((l.dropWhile isJsWs).reverse.dropWhile isJsWs).reverse

/-- Model of `String.prototype.trim`. -/
def jsTrim (s : String) : String :=
  ⟨jsTrimList s.data⟩

/-- Model of `String.prototype.trimStart`. -/
def jsTrimStart (s : String) : String :=
  ⟨s.data.dropWhile isJsWs⟩

/-- Model of `String.prototype.trimEnd`. -/
def jsTrimEnd (s : String) : String :=
  ⟨(s.data.reverse.dropWhile isJsWs).reverse⟩

/-- Worker of the whitespace collapse: the flag records whether the
previous character was whitespace, so a run emits one space. -/
def collapseWsGo (prevWs : Bool) : List Char → List Char
  | [] => []
  | c :: rest =>
    if isJsWs c then
      if prevWs then collapseWsGo true rest else ' ' :: collapseWsGo true rest
    else c :: collapseWsGo false rest

/-- Replace every maximal run of JavaScript whitespace by a single space:
the global replacement of a whitespace run by one space. -/
def collapseWsList (l : List Char) : List Char :=
  collapseWsGo false l

/-- Collapse whitespace runs in a string to single spaces. -/
def collapseWs (s : String) : String :=
  ⟨collapseWsList s.data⟩

/-- Model of `String.prototype.toLowerCase` (simple case mapping). -/
def jsToLower (s : String) : String :=
  ⟨s.data.map Char.toLower⟩

/-- Character-list substring search: true when `needle` occurs inside
`hay`, the model of `String.prototype.includes`. -/
def charsContains (hay needle : List Char) : Bool :=
  hay.tails.any (fun t => needle.isPrefixOf t)

/-- Model of `String.prototype.includes`. -/
def jsIncludes (hay needle : String) : Bool :=
  charsContains hay.data needle.data

/-- Parse a nonempty list of decimal digits, the model of
`Number.parseInt` on a digit capture. -/
def digitsToNat (l : List Char) : Nat :=
  l.foldl (fun acc c => acc * 10 + (c.toNat - '0'.toNat)) 0

/-- Generic global-replacement scanner: at each position, `step` either
matches (returning the replacement and the number of characters the match
consumed, at least one by construction; the lower bound is enforced only
to make totality evident) and scanning resumes after the match, or the
current character is kept.  This models the global, leftmost,
non-overlapping semantics of `String.prototype.replace` with a global
pattern. -/
def replaceScanGo (step : List Char → Option (List Char × Nat)) :
    Nat → List Char → List Char
  | 0, l => l
  | _, [] => []
  | fuel + 1, l@(c :: rest) =>
    match step l with
    | some (repl, consumed) => repl ++ replaceScanGo step fuel (l.drop (max 1 consumed))
    | none => c :: replaceScanGo step fuel rest

def replaceScan (step : List Char → Option (List Char × Nat)) (l : List Char) :
    List Char :=
  replaceScanGo step l.length l

/-- Prefix test on strings (the model of `String.prototype.startsWith`). -/
def strStartsWith (s pre : String) : Bool :=
  pre.data.isPrefixOf s.data

/-- Suffix test on strings (the model of `String.prototype.endsWith`). -/
def strEndsWith (s post : String) : Bool :=
  post.data.isSuffixOf s.data

/-- Split a character list on a separator character. -/
def splitOnCharGo (sep : Char) : List Char → List Char → List (List Char)
  | acc, [] => [acc.reverse]
  | acc, c :: rest =>
    if c == sep then acc.reverse :: splitOnCharGo sep [] rest
    else splitOnCharGo sep (c :: acc) rest

/-- Split a string on a separator character (the model of
`String.prototype.split` with a one-character separator). -/
def strSplitOnChar (sep : Char) (s : String) : List String :=
  (splitOnCharGo sep [] s.data).map fun piece => ⟨piece⟩

/-- Stable insertion of an element into a list sorted by a boolean
non-strict order: the element lands after every element that compares at
or before it. -/
def stableInsert {α : Type} (le : α → α → Bool) (x : α) : List α → List α
  | [] => [x]
  | y :: rest => if le y x then y :: stableInsert le x rest else x :: y :: rest

/-- Stable sort by a boolean non-strict order.  The platform sort the
sources call is the stable ECMAScript array sort; under a consistent
comparator every stable sort produces the same list, so this insertion
sort is its model. -/
def stableSort {α : Type} (le : α → α → Bool) (l : List α) : List α :=
  l.foldl (fun acc x => stableInsert le x acc) []

/-- Match an HTML tag (angle bracket, at least one character other than a
closing bracket, closing bracket) at the head of the list; this pattern
is stripped to a space by several source modules. -/
def tagStep (l : List Char) : Option (List Char × Nat) :=
  match l with
  | '<' :: rest =>
    let body := rest.takeWhile (fun c => c != '>')
    if body.isEmpty then none
    else if (rest.drop body.length).head? == some '>' then
      some ([' '], 1 + body.length + 1)
    else none
  | _ => none

end DevFeed


namespace DevFeed.Ranking

/-! ## Feed ranking and deduplication engine

Embedding of the ranking source file (`rankAndFilterArticlesForDeveloperFeed`
and its helpers).  `new Date(s).getTime()` is modelled by an explicit date
parser argument `dparse : String → Option Int` returning the millisecond
timestamp, with `none` standing for `NaN`. -/

/-- Source tier classification. -/
inductive Tier
  | core
  | normal
  | explore
deriving DecidableEq, Repr

/-- Feed source configuration (`FeedSource` in `src/config/feeds.ts`);
optional numeric fields are rationals, `none` models an absent field. -/
structure FeedSource where
  id : String
  name : String
  feedUrl : String
  website : String
  color : String
  tier : Option Tier := none
  lookbackDays : Option ℚ := none
  maxUnreadVisible : Option Nat := none
  priority : Option ℚ := none
  includeCategories : Option (List String) := none
  excludeCategories : Option (List String) := none
  excludeKeywords : Option (List String) := none
deriving DecidableEq, Repr

/-- Normalized feed article (`Article` in `src/types/feed.ts`). -/
structure Article where
  id : String
  title : String
  sourceId : String
  sourceName : String
  sourceColor : String
  sourceFeedUrl : Option String := none
  link : String
  publishedAt : String
  excerpt : String
  categories : List String
  authorName : Option String := none
  readingTimeLabel : Option String := none
deriving DecidableEq, Repr

def DEFAULT_UNREAD_TOTAL_LIMIT : Nat := 20
def DEFAULT_READ_ARCHIVE_DAYS : Nat := 7
def READ_STORAGE_RETENTION_DAYS : Nat := 45
def FEED_LOOKBACK_DAYS : ℚ := 7

def DEFAULT_UNREAD_PER_SOURCE_BY_TIER : Tier → Nat
  | .core => 3
  | .normal => 2
  | .explore => 2

def DEFAULT_SOURCE_PRIORITY_BY_TIER : Tier → ℚ
  | .core => 16
  | .normal => 10
  | .explore => 7

def ENGINEERING_KEYWORDS : List String :=
  ["engineering", "developer", "infrastructure", "security", "reliability",
   "scalability", "performance", "database", "distributed", "architecture",
   "ai", "ml", "platform", "devops", "observability", "api", "cloud",
   "frontend", "backend", "testing", "release", "incident", "postmortem"]

def NOISE_KEYWORDS : List String :=
  ["launch", "pricing", "webinar", "customer story", "event recap", "press",
   "announcement", "sponsored", "ebook", "report", "case study", "q&a",
   "hiring"]

def DATE_MS_PER_DAY : Int := 24 * 60 * 60 * 1000

/-- Collapse whitespace, trim and lowercase, as `normalizeText`. -/
def normalizeText (value : String) : String :=
  jsToLower (jsTrim (collapseWs value))

/-- Check whether, after skipping whitespace, the list starts with the
letters of the minutes keyword; the regexp alternation tries the bare
three-letter stem first, so a match only needs that stem. -/
def minutesKeywordAhead (l : List Char) : Bool :=
  match l.dropWhile isJsWs with
  | a :: b :: c :: _ => a.toLower == 'm' && b.toLower == 'i' && c.toLower == 'n'
  | _ => false

/-- Try to match one to three digits followed by optional whitespace and
the minutes keyword at the head of the list, greedily preferring the
longest digit run (the regexp quantifier is greedy).  Returns the captured
digit value. -/
def tryMinutesAt (l : List Char) : Option Nat :=
  (([3, 2, 1].filter fun k =>
      (l.take k).length == k && (l.take k).all Char.isDigit &&
        minutesKeywordAhead (l.drop k)).head?).map fun k =>
    digitsToNat (l.take k)

/-- Leftmost match of the minutes pattern over the whole list. -/
def scanMinutes : List Char → Option Nat
  | [] => none
  | l@(_ :: rest) =>
    match tryMinutesAt l with
    | some m => some m
    | none => scanMinutes rest

/-- Parse a reading-time label such as a number followed by a minutes
keyword; rejects values outside the range one to two hundred forty. -/
def parseReadingMinutes (label : Option String) : Option Nat :=
  match label with
  | none => none
  | some s =>
    match scanMinutes s.data with
    | none => none
    | some minutes =>
      if minutes ≤ 0 || minutes > 240 then none else some minutes

/-- Count the keywords that occur as substrings of the text. -/
def countKeywordHits (text : String) (keywords : List String) : Nat :=
  keywords.foldl (fun hits keyword =>
    if jsIncludes text keyword then hits + 1 else hits) 0

/-- Clamp a value into an interval, as the source `clamp` helper. -/
def clamp (value min' max' : ℚ) : ℚ :=
  min max' (max min' value)

/-- Tier of a source, defaulting to normal. -/
def resolveSourceTier (source : FeedSource) : Tier :=
  source.tier.getD .normal

/-- Effective lookback window: the configured positive value capped by the
global seven-day cap, else the global cap. -/
def resolveLookbackDays (source : FeedSource) : ℚ :=
  match source.lookbackDays with
  | some configured =>
    if 0 < configured then min configured FEED_LOOKBACK_DAYS
    else FEED_LOOKBACK_DAYS
  | none => FEED_LOOKBACK_DAYS

/-- Per-source unread limit, defaulting by tier. -/
def resolveUnreadPerSourceLimit (source : FeedSource) : Nat :=
  source.maxUnreadVisible.getD
    (DEFAULT_UNREAD_PER_SOURCE_BY_TIER (resolveSourceTier source))

/-- Rounding half up, the model of `Math.round`. -/
def jsRound (q : ℚ) : Int :=
  ⌊q + 1 / 2⌋

/-- Explicit priority rounded and clamped to the zero-to-twenty band, or
the tier default. -/
def resolveSourcePriorityScore (source : FeedSource) : ℚ :=
  match source.priority with
  | some p => clamp (jsRound p : ℚ) 0 20
  | none => DEFAULT_SOURCE_PRIORITY_BY_TIER (resolveSourceTier source)

/-- Age of an article in days at `nowMs`; `none` when the published date
does not parse. -/
def ageInDays (dparse : String → Option Int) (publishedAt : String)
    (nowMs : Int) : Option ℚ :=
  (dparse publishedAt).map fun publishedMs =>
    ((nowMs - publishedMs : Int) : ℚ) / (DATE_MS_PER_DAY : ℚ)

/-- Category and keyword component of the score, clamped to the band from
minus ten to fifteen. -/
def categoryMatchScore (article : Article) (source : FeedSource) : ℚ :=
  let categories := article.categories.map normalizeText
  let includeCategories := (source.includeCategories.getD []).map normalizeText
  let excludeCategories := (source.excludeCategories.getD []).map normalizeText
  let score0 : ℚ := 0
  let score1 :=
    if includeCategories.length > 0 then
      if categories.any (fun category => includeCategories.contains category)
      then score0 + 15 else score0 - 8
    else score0
  let score2 :=
    if excludeCategories.length > 0 &&
        categories.any (fun category => excludeCategories.contains category)
    then score1 - 10 else score1
  let semanticText := normalizeText
    (article.title ++ " " ++ article.excerpt ++ " " ++
      String.intercalate " " article.categories)
  let positiveHits := countKeywordHits semanticText ENGINEERING_KEYWORDS
  let negativeHits := countKeywordHits semanticText NOISE_KEYWORDS
  let score3 := score2 + min 10 ((positiveHits : ℚ) * 2)
  let score4 := score3 - min 10 ((negativeHits : ℚ) * 3)
  clamp score4 (-10) 15

/-- Reading-time fit component of the score. -/
def readTimeFitScore (article : Article) : ℚ :=
  match parseReadingMinutes article.readingTimeLabel with
  | none => 0
  | some minutes =>
    if 4 ≤ minutes && minutes ≤ 12 then 8
    else if 2 ≤ minutes && minutes ≤ 20 then 4
    else if minutes < 2 then -4
    else if minutes > 30 then -6
    else -2

/-- Trend boost component of the score. -/
def trendBoostScore (source : FeedSource) : ℚ :=
  let sourceId := jsToLower source.id
  let sourceName := jsToLower source.name
  let website := jsToLower source.website
  if jsIncludes sourceId "trending" || jsIncludes sourceName "trending" then 15
  else if jsIncludes sourceId "github" || jsIncludes sourceName "github" ||
      jsIncludes website "github" then 6
  else 0

/-- Title-noise penalty component of the score, capped at minus twenty. -/
def titleNoisePenalty (article : Article) (source : FeedSource) : ℚ :=
  let sourceNoiseKeywords := source.excludeKeywords.getD []
  let text := normalizeText (article.title ++ " " ++ article.excerpt)
  let hits := countKeywordHits text NOISE_KEYWORDS +
    countKeywordHits text (sourceNoiseKeywords.map normalizeText)
  Neg.neg (min 20 ((hits : ℚ) * 5))

/-- Total score of an article for a source: the recency decay plus the
other components, clamped to the zero-to-one-hundred band; an unparseable
published date yields the sentinel minus nine hundred ninety nine. -/
def scoreArticleForDeveloperFeed (dparse : String → Option Int)
    (article : Article) (source : FeedSource) (nowMs : Int) : ℚ :=
  match ageInDays dparse article.publishedAt nowMs with
  | none => -999
  | some ageDays =>
    let lookbackDays := resolveLookbackDays source
    let recency := clamp (40 * (1 - ageDays / lookbackDays)) 0 40
    clamp
      (recency + resolveSourcePriorityScore source +
        categoryMatchScore article source + readTimeFitScore article +
        trendBoostScore source + titleNoisePenalty article source)
      0 100

/-- Recency gate applied before scoring: drops articles whose date does
not parse or whose age is negative; the source argument is ignored by the
source code. -/
def shouldKeepByLookback (dparse : String → Option Int) (article : Article)
    (_source : FeedSource) (now : Int) : Bool :=
  match ageInDays dparse article.publishedAt now with
  | none => false
  | some ageDays => !(ageDays < 0)

/-- Transient ranking candidate. -/
structure RankedCandidate where
  article : Article
  source : FeedSource
  score : ℚ
  publishedAtMs : Int
deriving DecidableEq, Repr

end DevFeed.Ranking

namespace DevFeed.Url

/-! ## Platform URL model

Model of the platform WHATWG `URL` object, restricted to absolute
`http`/`https` URLs with a plain authority (no user information or
exotic host forms), which covers the article and feed URLs this
repository handles.  Parsing failure (the constructor throwing) is
`none`.  The fragment is discarded at parse time because every use in the
sources clears `url.hash` before reading the URL back. -/

/-- Parsed URL: scheme, lowercased host (with any non-default port),
pathname, and the raw query as `url.search` (empty or starting with a
question mark). -/
structure JsUrl where
  scheme : String
  host : String
  pathname : String
  search : String
deriving DecidableEq, Repr

/-- The `url.origin` accessor. -/
def JsUrl.origin (u : JsUrl) : String :=
  u.scheme ++ "://" ++ u.host

/-- Split a character list at the first occurrence of a separator. -/
def splitAtFirst (sep : Char) : List Char → Option (List Char × List Char)
  | [] => none
  | c :: rest =>
    if c == sep then some ([], rest)
    else (splitAtFirst sep rest).map fun p => (c :: p.1, p.2)

/-- Split a list into the longest run avoiding the stop characters and
the remainder (which starts with a stop character when nonempty). -/
def takeUntilAny (stops : List Char) (l : List Char) : List Char × List Char :=
  (l.takeWhile (fun c => !stops.contains c), l.dropWhile (fun c => !stops.contains c))

/-- Numeric value of a hexadecimal digit. -/
def hexVal (c : Char) : Option Nat :=
  if '0' ≤ c ∧ c ≤ '9' then some (c.toNat - '0'.toNat)
  else if 'a' ≤ c ∧ c ≤ 'f' then some (c.toNat - 'a'.toNat + 10)
  else if 'A' ≤ c ∧ c ≤ 'F' then some (c.toNat - 'A'.toNat + 10)
  else none

/-- The UTF-8 bytes of one character. -/
def utf8BytesOfChar (c : Char) : List UInt8 :=
  let n := c.toNat
  if n < 0x80 then [UInt8.ofNat n]
  else if n < 0x800 then
    [UInt8.ofNat (0xc0 + n / 0x40), UInt8.ofNat (0x80 + n % 0x40)]
  else if n < 0x10000 then
    [UInt8.ofNat (0xe0 + n / 0x1000), UInt8.ofNat (0x80 + n / 0x40 % 0x40),
      UInt8.ofNat (0x80 + n % 0x40)]
  else
    [UInt8.ofNat (0xf0 + n / 0x40000), UInt8.ofNat (0x80 + n / 0x1000 % 0x40),
      UInt8.ofNat (0x80 + n / 0x40 % 0x40), UInt8.ofNat (0x80 + n % 0x40)]

/-- The UTF-8 bytes of a string. -/
def utf8Encode (s : String) : List UInt8 :=
  s.data.foldr (fun c acc => utf8BytesOfChar c ++ acc) []

/-- A UTF-8 continuation byte. -/
def isContByte (b : UInt8) : Bool :=
  0x80 ≤ b && b < 0xc0

/-- Strict UTF-8 decoding of a byte list (overlong forms, surrogates and
out-of-range values rejected). -/
def utf8Decode : List UInt8 → Option (List Char)
  | [] => some []
  | b :: rest =>
    let n := b.toNat
    if n < 0x80 then (utf8Decode rest).map (Char.ofNat n :: ·)
    else if 0xc2 ≤ n && n ≤ 0xdf then
      match rest with
      | b2 :: rest2 =>
        if isContByte b2 then
          (utf8Decode rest2).map (Char.ofNat ((n - 0xc0) * 0x40 + (b2.toNat - 0x80)) :: ·)
        else none
      | _ => none
    else if 0xe0 ≤ n && n ≤ 0xef then
      match rest with
      | b2 :: b3 :: rest3 =>
        if isContByte b2 && isContByte b3 then
          let cp := (n - 0xe0) * 0x1000 + (b2.toNat - 0x80) * 0x40 + (b3.toNat - 0x80)
          if cp < 0x800 || (0xd800 ≤ cp && cp ≤ 0xdfff) then none
          else (utf8Decode rest3).map (Char.ofNat cp :: ·)
        else none
      | _ => none
    else if 0xf0 ≤ n && n ≤ 0xf4 then
      match rest with
      | b2 :: b3 :: b4 :: rest4 =>
        if isContByte b2 && isContByte b3 && isContByte b4 then
          let cp := (n - 0xf0) * 0x40000 + (b2.toNat - 0x80) * 0x1000 +
            (b3.toNat - 0x80) * 0x40 + (b4.toNat - 0x80)
          if cp < 0x10000 || cp > 0x10ffff then none
          else (utf8Decode rest4).map (Char.ofNat cp :: ·)
        else none
      | _ => none
    else none

/-- Decode the percent-encoded byte stream of a form-urlencoded token. -/
def percentDecodeBytes : List Char → List UInt8
  | [] => []
  | '%' :: a :: b :: rest =>
    match hexVal a, hexVal b with
    | some ha, some hb => UInt8.ofNat (ha * 16 + hb) :: percentDecodeBytes rest
    | _, _ => utf8BytesOfChar '%' ++ percentDecodeBytes (a :: b :: rest)
  | '+' :: rest => (0x20 : UInt8) :: percentDecodeBytes rest
  | c :: rest => utf8BytesOfChar c ++ percentDecodeBytes rest

/-- Form-urlencoded decoding of one token; byte sequences that are not
valid text keep the raw token (model of replacement behaviour). -/
def formUrlDecode (s : String) : String :=
  match utf8Decode (percentDecodeBytes s.data) with
  | some cs => ⟨cs⟩
  | none => s

/-- Uppercase hexadecimal digit. -/
def hexDigitUpper (n : Nat) : Char :=
  if n < 10 then Char.ofNat ('0'.toNat + n)
  else Char.ofNat ('A'.toNat + (n - 10))

/-- A byte serialized verbatim by form-urlencoding: ASCII alphanumerics
and asterisk, hyphen, period, underscore. -/
def isUrlSafeByte (b : UInt8) : Bool :=
  (0x30 ≤ b && b ≤ 0x39) || (0x41 ≤ b && b ≤ 0x5a) || (0x61 ≤ b && b ≤ 0x7a) ||
    b == 0x2a || b == 0x2d || b == 0x2e || b == 0x5f

/-- Form-urlencoded serialization of one byte. -/
def encodeByte (b : UInt8) : String :=
  if b == 0x20 then "+"
  else if isUrlSafeByte b then String.singleton (Char.ofNat b.toNat)
  else String.singleton '%' ++ String.singleton (hexDigitUpper (b.toNat / 16)) ++
    String.singleton (hexDigitUpper (b.toNat % 16))

/-- Form-urlencoded serialization of one token. -/
def formUrlEncode (s : String) : String :=
  ((utf8Encode s).map encodeByte).foldl (· ++ ·) ""

/-- The `URLSearchParams.toString` serialization of a parameter list. -/
def urlSearchParamsToString (params : List (String × String)) : String :=
  String.intercalate "&"
    (params.map fun kv => formUrlEncode kv.1 ++ "=" ++ formUrlEncode kv.2)

/-- Model of the platform URL parser for absolute http and https URLs. -/
def jsUrlParse (rawUrl : String) : Option JsUrl :=
  match splitAtFirst ':' rawUrl.data with
  | none => none
  | some (schemeRaw, rest) =>
    let scheme := DevFeed.jsToLower ⟨schemeRaw⟩
    if !(scheme == "http" || scheme == "https") then none
    else
      match rest with
      | '/' :: '/' :: rest2 =>
        let (auth, rest3) := takeUntilAny ['/', '?', '#'] rest2
        if auth.isEmpty then none
        else
          let host0 := DevFeed.jsToLower ⟨auth⟩
          let host :=
            if scheme == "http" && strEndsWith host0 ":80" then host0.dropRight 3
            else if scheme == "https" && strEndsWith host0 ":443" then host0.dropRight 4
            else host0
          let beforeHash := rest3.takeWhile (fun c => c != '#')
          let (pathPart, queryRest) := takeUntilAny ['?'] beforeHash
          let pathname : String := if pathPart.isEmpty then "/" else ⟨pathPart⟩
          let search : String :=
            match queryRest with
            | [] => ""
            | _ :: q => if q.isEmpty then "" else "?" ++ (⟨q⟩ : String)
          some ⟨scheme, host, pathname, search⟩
      | _ => none

/-- The `url.searchParams` entry list: pieces of the query split on
ampersands, empty pieces skipped, each piece split at its first equals
sign, both halves form-urldecoded. -/
def JsUrl.searchParams (u : JsUrl) : List (String × String) :=
  let qs : String :=
    match u.search.data with
    | '?' :: q => ⟨q⟩
    | _ => u.search
  (((strSplitOnChar '&' qs)).filter (fun piece => piece ≠ "")).map fun piece =>
    match splitAtFirst '=' piece.data with
    | some (k, v) => (formUrlDecode ⟨k⟩, formUrlDecode ⟨v⟩)
    | none => (formUrlDecode piece, "")

/-- Model of `String.prototype.localeCompare` as a non-strict order for
sorting: case-insensitive comparison first, lowercase before uppercase on
ties, which matches the default collation on the ASCII parameter keys the
sources sort. -/
def localeCompareLe (a b : String) : Bool :=
  if DevFeed.jsToLower a ≠ DevFeed.jsToLower b then
    decide (DevFeed.jsToLower a ≤ DevFeed.jsToLower b)
  else decide (b ≤ a)

/-- Strip every trailing slash, the replacement of the trailing-slash-run
pattern by the empty string. -/
def stripTrailingSlashes (s : String) : String :=
  ⟨(s.data.reverse.dropWhile (fun c => c == '/')).reverse⟩

end DevFeed.Url

namespace DevFeed

/-! ## JavaScript Map model

Insertion-ordered association lists over string keys, mirroring the
`Map` objects of the sources: `set` on a present key replaces the value
in place, otherwise appends; `delete` removes the key; iteration follows
insertion order. -/

/-- The `Map.get` lookup. -/
def mapGet {β : Type} (m : List (String × β)) (k : String) : Option β :=
  List.lookup k m

/-- The `Map.delete` removal. -/
def mapErase {β : Type} (m : List (String × β)) (k : String) : List (String × β) :=
  m.filter fun p => p.1 != k

/-- The `Map.set` upsert. -/
def mapSet {β : Type} (m : List (String × β)) (k : String) (v : β) :
    List (String × β) :=
  if (mapGet m k).isSome then m.map fun p => if p.1 == k then (k, v) else p
  else m ++ [(k, v)]

end DevFeed

namespace DevFeed.Ranking

/-- Normalization of a comparable URL: clear the fragment, drop tracking
parameters (any key with the utm prefix, and the click or referrer
identifiers), sort the remaining parameters, strip trailing slashes from
the pathname, and reserialize. -/
def normalizeComparableUrl (rawUrl : String) : Option String :=
  (Url.jsUrlParse rawUrl).map fun url =>
    let cleanParams :=
      stableSort (fun a b => Url.localeCompareLe a.1 b.1)
        (url.searchParams.filter fun kv =>
          if strStartsWith kv.1 "utm_" then false
          else !(["fbclid", "gclid", "ref", "source"].contains kv.1))
    let query := Url.urlSearchParamsToString cleanParams
    let pathname :=
      if url.pathname == "/" then "/" else Url.stripTrailingSlashes url.pathname
    url.origin ++ pathname ++ (if query ≠ "" then "?" ++ query else "")

/-- Lookup in the source map built from the list of sources; a later
source with a duplicate id overwrites an earlier one, as when building a
`Map` from entries. -/
def sourceByIdGet (sources : List FeedSource) (id : String) : Option FeedSource :=
  sources.foldl (fun acc source => if source.id == id then some source else acc) none

/-- Deduplication key of an article: normalized link when available and
nonempty, else the normalized title, else the raw id. -/
def dedupeKeyFor (article : Article) : String :=
  let normalizedLink :=
    match normalizeComparableUrl article.link with
    | some s => if s ≠ "" then some s else none
    | none => none
  match normalizedLink with
  | some link => link
  | none =>
    let normalizedTitle := normalizeText article.title
    if normalizedTitle ≠ "" then "title:" ++ normalizedTitle
    else "id:" ++ article.id

/-- Body of the candidate-collection loop: match the source, apply the
recency gate, re-parse the published date, score, and insert into the
deduplication map keeping the better of two candidates that share a key
(higher score, then more recent timestamp). -/
def considerArticle (dparse : String → Option Int) (sources : List FeedSource)
    (now : Int) (acc : List (String × RankedCandidate)) (article : Article) :
    List (String × RankedCandidate) :=
  match sourceByIdGet sources article.sourceId with
  | none => acc
  | some source =>
    if !(shouldKeepByLookback dparse article source now) then acc
    else
      match dparse article.publishedAt with
      | none => acc
      | some publishedAtMs =>
        let score := scoreArticleForDeveloperFeed dparse article source now
        let dedupeKey := dedupeKeyFor article
        let candidate : RankedCandidate := ⟨article, source, score, publishedAtMs⟩
        match mapGet acc dedupeKey with
        | none => mapSet acc dedupeKey candidate
        | some existing =>
          if existing.score < candidate.score then mapSet acc dedupeKey candidate
          else if candidate.score == existing.score &&
              existing.publishedAtMs < candidate.publishedAtMs then
            mapSet acc dedupeKey candidate
          else acc

/-- Comparator of the final sort as a non-strict order: newer timestamps
first, and among equal timestamps higher scores first. -/
def rankLe (a b : RankedCandidate) : Bool :=
  if a.publishedAtMs ≠ b.publishedAtMs then decide (b.publishedAtMs ≤ a.publishedAtMs)
  else decide (b.score ≤ a.score)

/-- Collect, deduplicate and sort the ranking candidates. -/
def buildRankedCandidates (dparse : String → Option Int) (articles : List Article)
    (sources : List FeedSource) (now : Int) : List RankedCandidate :=
  stableSort rankLe
    ((articles.foldl (considerArticle dparse sources now) []).map Prod.snd)

/-- Ranking options: the resolved clock and the optional output cap. -/
structure RankOptions where
  now : Int
  maxTotal : Option Int := none

/-- Rank and filter the articles: candidates in sorted order, projected
back to articles, truncated to a non-negative requested total. -/
def rankAndFilterArticlesForDeveloperFeed (dparse : String → Option Int)
    (articles : List Article) (sources : List FeedSource)
    (options : RankOptions) : List Article :=
  let ranked := buildRankedCandidates dparse articles sources options.now
  let rankedArticles := ranked.map (·.article)
  match options.maxTotal with
  | some maxTotal =>
    if 0 ≤ maxTotal then rankedArticles.take maxTotal.toNat else rankedArticles
  | none => rankedArticles

end DevFeed.Ranking

namespace DevFeed.Utils

/-! ## Shared utilities

Embedding of the HTML-entity decoder from the shared utility module. -/

/-- Named-entity table. -/
def HTML_ENTITIES : List (String × String) :=
  [("amp", "&"), ("apos", String.singleton '\''), ("gt", ">"), ("lt", "<"),
   ("nbsp", " "), ("quot", "\"")]

/-- Decode a numeric code point when it is a representable scalar value;
the platform would also produce unpaired surrogate units, which have no
textual model and are treated as undecodable. -/
def decodeCodePointNat (n : Nat) : Option Char :=
  if n < 0xd800 ∨ (0xdfff < n ∧ n ≤ 0x10ffff) then some (Char.ofNat n) else none

/-- Match a decimal character reference (ampersand, hash, digits, optional
semicolon) at the head of the list. -/
def decEntityStep (l : List Char) : Option (List Char × Nat) :=
  match l with
  | '&' :: '#' :: rest =>
    let ds := rest.takeWhile Char.isDigit
    if ds.isEmpty then none
    else
      let after := rest.drop ds.length
      let hasSemi := after.head? == some ';'
      let consumed := 2 + ds.length + (if hasSemi then 1 else 0)
      let matched := '&' :: '#' :: ds ++ (if hasSemi then [';'] else [])
      match decodeCodePointNat (digitsToNat ds) with
      | some c => some ([c], consumed)
      | none => some (matched, consumed)
  | _ => none

/-- Hexadecimal digit test of the character class used by the hex
reference pattern under the case-insensitive flag. -/
def isHexDigit (c : Char) : Bool :=
  c.isDigit || ('a' ≤ c && c ≤ 'f') || ('A' ≤ c && c ≤ 'F')

/-- Numeric value of a hex digit list. -/
def hexToNat (l : List Char) : Nat :=
  l.foldl (fun acc c =>
    acc * 16 +
      (if c.isDigit then c.toNat - '0'.toNat
       else if 'a' ≤ c && c ≤ 'f' then c.toNat - 'a'.toNat + 10
       else c.toNat - 'A'.toNat + 10)) 0

/-- Match a hexadecimal character reference at the head of the list. -/
def hexEntityStep (l : List Char) : Option (List Char × Nat) :=
  match l with
  | '&' :: '#' :: x :: rest =>
    if !(x == 'x' || x == 'X') then none
    else
      let hs := rest.takeWhile isHexDigit
      if hs.isEmpty then none
      else
        let after := rest.drop hs.length
        let hasSemi := after.head? == some ';'
        let consumed := 3 + hs.length + (if hasSemi then 1 else 0)
        let matched := '&' :: '#' :: x :: hs ++ (if hasSemi then [';'] else [])
        match decodeCodePointNat (hexToNat hs) with
        | some c => some ([c], consumed)
        | none => some (matched, consumed)
  | _ => none

/-- Alphanumeric test of the tail class of the named-reference pattern. -/
def isAsciiAlnum (c : Char) : Bool :=
  c.isDigit || ('a' ≤ c && c ≤ 'z') || ('A' ≤ c && c ≤ 'Z')

/-- ASCII letter test. -/
def isAsciiLetter (c : Char) : Bool :=
  ('a' ≤ c && c ≤ 'z') || ('A' ≤ c && c ≤ 'Z')

/-- Match a named character reference (ampersand, a letter, at least one
further alphanumeric, semicolon); unknown names are kept verbatim. -/
def namedEntityStep (l : List Char) : Option (List Char × Nat) :=
  match l with
  | '&' :: a :: rest =>
    if !isAsciiLetter a then none
    else
      let bs := rest.takeWhile isAsciiAlnum
      if bs.isEmpty then none
      else
        let after := rest.drop bs.length
        if after.head? == some ';' then
          let name := jsToLower ⟨a :: bs⟩
          let consumed := 2 + bs.length + 1
          match List.lookup name HTML_ENTITIES with
          | some repl => some (repl.data, consumed)
          | none => some ('&' :: a :: bs ++ [';'], consumed)
        else none
  | _ => none

/-- Decode HTML character references: decimal references, then
hexadecimal references, then named references, then no-break spaces. -/
def decodeHtmlEntities (value : String) : String :=
  let s1 := replaceScan decEntityStep value.data
  let s2 := replaceScan hexEntityStep s1
  let s3 := replaceScan namedEntityStep s2
  ⟨s3.map fun c => if c == ' ' then ' ' else c⟩

end DevFeed.Utils

namespace DevFeed.Server

/-! ## Content resolution types and feed-item content resolution

Embedding of the server resolution module: the result types, the
feed-item content resolution, and the article result cache. -/

/-- Whether resolved content is the full body or a feed snippet. -/
inductive ContentMode
  | full
  | summary
deriving DecidableEq, Repr

/-- Structured author entry. -/
structure AuthorProfile where
  name : String
  profileUrl : String
  avatarUrl : Option String := none
deriving DecidableEq, Repr

/-- Successful article content payload. -/
structure ArticleContent where
  title : String
  content : String
  siteName : Option String := none
  excerpt : Option String := none
  readingTimeLabel : Option String := none
  authorName : Option String := none
  authorAvatarUrl : Option String := none
  authors : Option (List AuthorProfile) := none
  contentMode : ContentMode
deriving DecidableEq, Repr

/-- Error payload. -/
structure ArticleContentError where
  error : String
deriving DecidableEq, Repr

/-- Tagged union of the two payloads; the source discriminates the union
by the presence of the error field. -/
inductive FetchArticleResult
  | ok (content : ArticleContent)
  | err (failure : ArticleContentError)
deriving DecidableEq, Repr

/-- The discrimination the source performs with an error-field presence
check. -/
def FetchArticleResult.isError : FetchArticleResult → Bool
  | .ok _ => false
  | .err _ => true

/-- Feed item fields used by feed-content resolution; the encoded-content
field carries the rich body of the item. -/
structure FeedItemWithEncoded where
  title : Option String := none
  link : Option String := none
  guid : Option String := none
  contentEncoded : Option String := none
  content : Option String := none
  summary : Option String := none
  contentSnippet : Option String := none
deriving DecidableEq, Repr

/-- Resolution of a feed item body. -/
structure FeedContentResolution where
  rawContent : String
  excerpt : Option String
  contentMode : ContentMode
deriving DecidableEq, Repr

/-- Optional trim with empty default, the optional-chaining trim of the
source followed by the falsy default. -/
def optTrim (o : Option String) : String :=
  match o with
  | some s => jsTrim s
  | none => ""

/-- Replace every HTML tag by a space. -/
def stripTagsToSpace (s : String) : String :=
  ⟨replaceScan tagStep s.data⟩

/-- Collapse whitespace runs and trim. -/
def normalizeSpaces (value : String) : String :=
  jsTrim (collapseWs value)

/-- Resolve the body, excerpt and content mode of a feed item: the body is
the first nonempty of encoded content, content, summary and snippet; the
excerpt comes from snippet or summary with tags stripped and entities
decoded; the mode is full when encoded content is present, or when a
content field is present without a snippet, or when the content field
exceeds the snippet by more than two hundred characters. -/
def resolveFeedItemContent (item : FeedItemWithEncoded) : FeedContentResolution :=
  let encodedContent := optTrim item.contentEncoded
  let contentField := optTrim item.content
  let summaryField := optTrim item.summary
  let snippetField := optTrim item.contentSnippet
  let rawContent :=
    if encodedContent ≠ "" then encodedContent
    else if contentField ≠ "" then contentField
    else if summaryField ≠ "" then summaryField
    else if snippetField ≠ "" then snippetField
    else ""
  let excerptRaw :=
    if snippetField ≠ "" then some snippetField
    else if summaryField ≠ "" then some summaryField
    else none
  let excerpt := excerptRaw.map fun raw =>
    normalizeSpaces (Utils.decodeHtmlEntities (stripTagsToSpace raw))
  let contentMode : ContentMode :=
    if encodedContent ≠ "" ∨ (contentField ≠ "" ∧ snippetField = "") ∨
        (contentField ≠ "" ∧ snippetField ≠ "" ∧
          snippetField.length + 200 < contentField.length)
    then .full else .summary
  ⟨rawContent, excerpt, contentMode⟩

end DevFeed.Server

namespace DevFeed.Coalesce

/-! ## Timed caches and request coalescing

Both the server resolution module and the client cache module implement
the same pattern around their result caches: a timed cache consulted
first, then an in-flight map that coalesces concurrent requests for one
key, then a fresh underlying request whose settlement writes the cache
and whose cleanup removes the in-flight entry.  The definitions here are
parametric in the key function and expiry policy and are instantiated
once per source file below.

A pending request is modelled with the value its promise eventually
settles with, so that statements can speak about the outcome concurrent
callers observe. -/

/-- A cache entry together with its expiry instant. -/
structure TimedCacheEntry (T : Type) where
  value : T
  expiresAt : Int
deriving DecidableEq, Repr

/-- An in-flight request: an identity for the underlying fetch sequence
and the value its promise eventually settles with. -/
structure PendingRequest (T : Type) where
  rid : Nat
  result : T
deriving DecidableEq, Repr

/-- Read a cache entry, deleting and missing entries whose expiry is at
or before the current time; returns the value found and the updated
cache. -/
def getCachedValue {T : Type} (cache : List (String × TimedCacheEntry T))
    (key : String) (now : Int) :
    Option T × List (String × TimedCacheEntry T) :=
  match mapGet cache key with
  | none => (none, cache)
  | some cached =>
    if cached.expiresAt ≤ now then (none, mapErase cache key)
    else (some cached.value, cache)

/-- Evict oldest-inserted entries while the cache exceeds its maximum
size (the eviction loop of both source files). -/
def evictOldest {T : Type} (cache : List (String × TimedCacheEntry T))
    (maxEntries : Nat) : List (String × TimedCacheEntry T) :=
  if cache.length > maxEntries then cache.drop (cache.length - maxEntries)
  else cache

/-- Write a value with the given time-to-live: delete any previous entry
for the key, append the fresh entry, then evict down to the maximum
size. -/
def setCachedValue {T : Type} (cache : List (String × TimedCacheEntry T))
    (key : String) (value : T) (now : Int) (ttlMs : Int) (maxEntries : Nat) :
    List (String × TimedCacheEntry T) :=
  let cache1 := if (mapGet cache key).isSome then mapErase cache key else cache
  let cache2 := cache1 ++ [(key, ⟨value, now + ttlMs⟩)]
  evictOldest cache2 maxEntries

/-- Joint state of the result cache and the in-flight map. -/
structure ResolveState (T : Type) where
  cache : List (String × TimedCacheEntry T)
  inFlight : List (String × PendingRequest T)
deriving DecidableEq, Repr

/-- What a call observes: an unexpired cached value, the pending request
of an identical in-flight call, or a freshly started request. -/
inductive ResolveOutcome (T : Type)
  | cached (value : T)
  | awaitExisting (request : PendingRequest T)
  | startFetch (request : PendingRequest T)
deriving DecidableEq, Repr

/-- The synchronous prefix of the resolving operation: check the cache,
then the in-flight map, else register a fresh request. -/
def resolveStep {T : Type} (getKey : String → Option String → String)
    (st : ResolveState T) (url : String) (sourceFeedUrl : Option String)
    (now : Int) (fresh : PendingRequest T) :
    ResolveOutcome T × ResolveState T :=
  let key := getKey url sourceFeedUrl
  match getCachedValue st.cache key now with
  | (some cached, cache') => (.cached cached, ⟨cache', st.inFlight⟩)
  | (none, cache') =>
    match mapGet st.inFlight key with
    | some pending => (.awaitExisting pending, ⟨cache', st.inFlight⟩)
    | none => (.startFetch fresh, ⟨cache', mapSet st.inFlight key fresh⟩)

/-- Settlement of an in-flight request (the continuation that stores the
outcome in the cache). -/
def settleStep {T : Type} (ttlFor : T → Int) (maxEntries : Nat)
    (st : ResolveState T) (key : String) (request : PendingRequest T)
    (now : Int) : ResolveState T :=
  ⟨setCachedValue st.cache key request.result now (ttlFor request.result) maxEntries,
    st.inFlight⟩

/-- Cleanup of an in-flight request (the finalizer that removes the
in-flight entry). -/
def cleanupStep {T : Type} (st : ResolveState T) (key : String) :
    ResolveState T :=
  ⟨st.cache, mapErase st.inFlight key⟩

/-- One interleaving step of the coalescing protocol: a call, a
settlement of an in-flight request, or its cleanup. -/
inductive StepR {T : Type} (getKey : String → Option String → String)
    (ttlFor : T → Int) (maxEntries : Nat) :
    ResolveState T → ResolveState T → Prop
  | call (st : ResolveState T) (url : String) (sourceFeedUrl : Option String)
      (now : Int) (fresh : PendingRequest T) :
      StepR getKey ttlFor maxEntries st
        (resolveStep getKey st url sourceFeedUrl now fresh).2
  | settle (st : ResolveState T) (key : String) (request : PendingRequest T)
      (now : Int) (h : mapGet st.inFlight key = some request) :
      StepR getKey ttlFor maxEntries st (settleStep ttlFor maxEntries st key request now)
  | cleanup (st : ResolveState T) (key : String) :
      StepR getKey ttlFor maxEntries st (cleanupStep st key)

/-- States reachable from the empty caches. -/
inductive Reachable {T : Type} (getKey : String → Option String → String)
    (ttlFor : T → Int) (maxEntries : Nat) : ResolveState T → Prop
  | init : Reachable getKey ttlFor maxEntries ⟨[], []⟩
  | step (st st' : ResolveState T) :
      Reachable getKey ttlFor maxEntries st →
      StepR getKey ttlFor maxEntries st st' →
      Reachable getKey ttlFor maxEntries st'

end DevFeed.Coalesce

namespace DevFeed.ClientCache

/-! ## Client-side article content cache

Embedding of the client cache module.  Its cache helpers coincide with
the parametric ones above with the client expiry policy fixed. -/

def ARTICLE_CACHE_TTL_MS : Int := 5 * 60 * 1000
def ARTICLE_ERROR_CACHE_TTL_MS : Int := 30 * 1000
def ARTICLE_CACHE_MAX_ENTRIES : Nat := 300

/-- Client URL normalization: clear the fragment, strip trailing slashes
from the pathname, and keep the query verbatim. -/
def normalizeComparableUrl (rawUrl : String) : Option String :=
  (Url.jsUrlParse rawUrl).map fun url =>
    let pathname :=
      if url.pathname == "/" then "/" else Url.stripTrailingSlashes url.pathname
    url.origin ++ pathname ++ url.search

/-- Truthy fallback: a normalization result that is absent or empty falls
back to the raw string. -/
def orRaw (o : Option String) (raw : String) : String :=
  match o with
  | some s => if s ≠ "" then s else raw
  | none => raw

/-- Client cache key: normalized feed URL (empty for an absent or empty
feed URL), two colons, normalized article URL. -/
def getCacheKey (url : String) (sourceFeedUrl : Option String) : String :=
  let normalizedArticleUrl := orRaw (normalizeComparableUrl url) url
  let normalizedFeedUrl :=
    match sourceFeedUrl with
    | some feedUrl =>
      if feedUrl ≠ "" then orRaw (normalizeComparableUrl feedUrl) feedUrl else ""
    | none => ""
  normalizedFeedUrl ++ "::" ++ normalizedArticleUrl

/-- Client time-to-live selection by the error discrimination. -/
def ttlMsFor (value : Server.FetchArticleResult) : Int :=
  if value.isError then ARTICLE_ERROR_CACHE_TTL_MS else ARTICLE_CACHE_TTL_MS

/-- Client cache read (specialized copy of the parametric helper). -/
def getCachedValue (cache : List (String × Coalesce.TimedCacheEntry Server.FetchArticleResult))
    (key : String) (now : Int) :
    Option Server.FetchArticleResult ×
      List (String × Coalesce.TimedCacheEntry Server.FetchArticleResult) :=
  Coalesce.getCachedValue cache key now

/-- Client cache write with the client expiry policy and size bound. -/
def setCachedValue (cache : List (String × Coalesce.TimedCacheEntry Server.FetchArticleResult))
    (key : String) (value : Server.FetchArticleResult) (now : Int) :
    List (String × Coalesce.TimedCacheEntry Server.FetchArticleResult) :=
  Coalesce.setCachedValue cache key value now (ttlMsFor value) ARTICLE_CACHE_MAX_ENTRIES

/-- Synchronous prefix of `loadArticleContent`. -/
def loadArticleContentStep (st : Coalesce.ResolveState Server.FetchArticleResult)
    (url : String) (sourceFeedUrl : Option String) (now : Int)
    (fresh : Coalesce.PendingRequest Server.FetchArticleResult) :
    Coalesce.ResolveOutcome Server.FetchArticleResult ×
      Coalesce.ResolveState Server.FetchArticleResult :=
  Coalesce.resolveStep getCacheKey st url sourceFeedUrl now fresh

/-- Reachable states of the client cache pair. -/
def ClientReachable (st : Coalesce.ResolveState Server.FetchArticleResult) : Prop :=
  Coalesce.Reachable getCacheKey ttlMsFor ARTICLE_CACHE_MAX_ENTRIES st

end DevFeed.ClientCache

namespace DevFeed.Server

/-! ## Server-side article result cache -/

def ARTICLE_RESULT_CACHE_TTL_MS : Int := 5 * 60 * 1000
def ARTICLE_ERROR_CACHE_TTL_MS : Int := 30 * 1000
def ARTICLE_RESULT_CACHE_MAX_ENTRIES : Nat := 300

/-- Server URL normalization for comparable URLs; its text coincides with
the ranking module's function of the same name. -/
def normalizeComparableUrl : String → Option String :=
  Ranking.normalizeComparableUrl

/-- Server cache key: normalized feed URL (empty for an absent or empty
feed URL), two colons, normalized article URL. -/
def getArticleCacheKey (url : String) (sourceFeedUrl : Option String) : String :=
  let normalizedArticleUrl := ClientCache.orRaw (normalizeComparableUrl url) url
  let feedKey :=
    match sourceFeedUrl with
    | some feedUrl =>
      if feedUrl ≠ "" then ClientCache.orRaw (normalizeComparableUrl feedUrl) feedUrl
      else ""
    | none => ""
  feedKey ++ "::" ++ normalizedArticleUrl

/-- Server time-to-live selection by the error discrimination. -/
def ttlMsFor (value : FetchArticleResult) : Int :=
  if value.isError then ARTICLE_ERROR_CACHE_TTL_MS else ARTICLE_RESULT_CACHE_TTL_MS

/-- Synchronous prefix of `fetchArticleContent`. -/
def fetchArticleContentStep (st : Coalesce.ResolveState FetchArticleResult)
    (url : String) (sourceFeedUrl : Option String) (now : Int)
    (fresh : Coalesce.PendingRequest FetchArticleResult) :
    Coalesce.ResolveOutcome FetchArticleResult ×
      Coalesce.ResolveState FetchArticleResult :=
  Coalesce.resolveStep getArticleCacheKey st url sourceFeedUrl now fresh

/-- Reachable states of the server cache pair. -/
def ServerReachable (st : Coalesce.ResolveState FetchArticleResult) : Prop :=
  Coalesce.Reachable getArticleCacheKey ttlMsFor ARTICLE_RESULT_CACHE_MAX_ENTRIES st

end DevFeed.Server

namespace DevFeed.Render

/-! ## Safe HTML-to-node transformation engine

Embedding of the article content component.  The parsed document is an
explicit tree (`DomNode`); the platform HTML parser is outside the model,
so the transform takes the parse result as an `Option` — `none` models an
unavailable or failing parser.  The produced React nodes are `RNode`
values; React keys, which are pure reconciliation metadata, are omitted,
and a keyed fragment is a `fragment` node. -/

/-- A node of the parsed document: text (node type three), element (node
type one, with its tag name, attributes and children), or any other node
type (comments and the like). -/
inductive DomNode
  | text (s : String)
  | element (tag : String) (attrs : List (String × String)) (children : List DomNode)
  | other
deriving Repr

/-- A renderable React node: null, a string, the external-link icon
element, a host element, or a fragment. -/
inductive RNode
  | nullNode
  | text (s : String)
  | externalLinkIcon
  | elem (tag : String) (props : List (String × String)) (children : List RNode)
  | fragment (children : List RNode)
deriving Repr

def VOID_TAGS : List String :=
  ["area", "base", "br", "col", "embed", "hr", "img", "input", "link",
   "meta", "param", "source", "track", "wbr"]

def ALLOWED_TAGS : List String :=
  ["a", "article", "aside", "blockquote", "br", "caption", "code",
   "details", "div", "em", "figcaption", "figure", "h1", "h2", "h3", "h4",
   "h5", "h6", "hr", "i", "img", "li", "main", "ol", "p", "picture", "pre",
   "section", "source", "span", "strong", "sub", "summary", "sup", "table",
   "tbody", "td", "thead", "th", "tr", "u", "ul"]

def GLOBAL_ATTRIBUTES : List String := ["title"]

def TAG_ATTRIBUTES : List (String × List String) :=
  [("a", ["href", "target", "rel"]),
   ("img", ["src", "alt", "width", "height", "loading"]),
   ("source", ["src", "srcset", "type", "media"]),
   ("code", ["class"]),
   ("pre", ["class"]),
   ("span", ["class"]),
   ("td", ["colspan", "rowspan"]),
   ("th", ["colspan", "rowspan", "scope"])]

def TABLE_STRUCTURE_TAGS : List String :=
  ["table", "thead", "tbody", "tfoot", "tr", "colgroup"]

def INLINE_WHITESPACE_PARENTS : List String :=
  ["a", "code", "em", "i", "span", "strong", "sub", "sup", "td", "th", "u"]

/-- Attribute allow-list check: style never, the global set and data or
aria attributes always, else the per-tag table. -/
def isAllowedAttribute (tag attrName : String) : Bool :=
  if attrName == "style" then false
  else if GLOBAL_ATTRIBUTES.contains attrName then true
  else if strStartsWith attrName "data-" then true
  else if strStartsWith attrName "aria-" then true
  else
    match List.lookup tag TAG_ATTRIBUTES with
    | some attrs => attrs.contains attrName
    | none => false

/-- Match a break tag (optionally self-closing, with inner whitespace) at
the head of the list; replaced by a blank line. -/
def brStep (l : List Char) : Option (List Char × Nat) :=
  match l with
  | '<' :: b :: r :: rest =>
    if !(b.toLower == 'b' && r.toLower == 'r') then none
    else
      let rest1 := rest.dropWhile isJsWs
      let rest2 := if rest1.head? == some '/' then rest1.drop 1 else rest1
      let rest3 := rest2.dropWhile isJsWs
      if rest3.head? == some '>' then
        some (['\n', '\n'], l.length - (rest3.length - 1))
      else none
  | _ => none

def CLOSE_PARA_TAGS : List String :=
  ["p", "div", "section", "article", "h1", "h2", "h3", "h4", "h5", "h6",
   "li", "blockquote", "tr"]

/-- Match a closing tag of a paragraph-like element at the head of the
list; replaced by a newline. -/
def closeParaStep (l : List Char) : Option (List Char × Nat) :=
  match l with
  | '<' :: '/' :: rest =>
    (CLOSE_PARA_TAGS.find? fun t =>
        jsToLower ⟨rest.take t.length⟩ == t &&
          (rest.drop t.length).head? == some '>').map fun t =>
      (['\n'], 2 + t.length + 1)
  | _ => none

/-- Match a literal (given lowercased) case-insensitively at the head of
the list. -/
def litStepCI (lit repl : String) (l : List Char) : Option (List Char × Nat) :=
  if jsToLower ⟨l.take lit.length⟩ == lit then some (repl.data, lit.length)
  else none

/-- Match a run of at least three newlines; replaced by a blank line. -/
def newlineRunStep (l : List Char) : Option (List Char × Nat) :=
  let run := l.takeWhile (fun c => c == '\n')
  if run.length ≥ 3 then some (['\n', '\n'], run.length) else none

/-- Match a run of spaces and tabs; replaced by one space. -/
def spaceTabRunStep (l : List Char) : Option (List Char × Nat) :=
  let run := l.takeWhile (fun c => c == ' ' || c == '\t')
  if run.length ≥ 1 then some ([' '], run.length) else none

/-- Plain-text projection of an HTML string: break tags become blank
lines, closing paragraph-like tags become newlines, remaining tags become
spaces, a few entities are decoded, newline runs are limited to two,
space runs are collapsed, and the result is trimmed. -/
def htmlToPlainText (html : String) : String :=
  let s1 := replaceScan brStep html.data
  let s2 := replaceScan closeParaStep s1
  let s3 := replaceScan tagStep s2
  let s4 := replaceScan (litStepCI "&nbsp;" " ") s3
  let s5 := replaceScan (litStepCI "&amp;" "&") s4
  let s6 := replaceScan (litStepCI "&quot;" "\"") s5
  let s7 := replaceScan (litStepCI "&#39;" (String.singleton '\'')) s6
  let s8 := replaceScan newlineRunStep s7
  let s9 := replaceScan spaceTabRunStep s8
  jsTrim ⟨s9⟩

mutual

/-- Split at separators made of two or more newlines (the paragraph
separator pattern of the fallback splitter). -/
def splitParasGo (acc : List Char) : List Char → List (List Char)
  | [] => [acc.reverse]
  | c :: rest =>
    if c == '\n' && rest.head? == some '\n' then
      acc.reverse :: splitParasSkip rest
    else splitParasGo (c :: acc) rest

/-- Consume the remainder of a newline run, then resume collecting. -/
def splitParasSkip : List Char → List (List Char)
  | [] => [[]]
  | c :: rest =>
    if c == '\n' then splitParasSkip rest else splitParasGo [c] rest

end

/-- Paragraph pieces of a text. -/
def splitParas (text : String) : List String :=
  (splitParasGo [] text.data).map fun piece => ⟨piece⟩

/-- Fallback rendering: the plain-text projection split into trimmed
paragraph elements; empty text yields no nodes. -/
def fallbackNodesFromHtml (html : String) : List RNode :=
  let text := htmlToPlainText html
  if text == "" then []
  else (splitParas text).map fun paragraph => .elem "p" [] [.text (jsTrim paragraph)]

/-- The lowercased window-hint phrase looked for inside text nodes. -/
def windowHintPhrase : List Char := "opens in a new window".data

/-- First index of the case-insensitive phrase occurrence. -/
def findPhraseFrom : Nat → List Char → Option Nat
  | _, [] => none
  | i, l@(_ :: rest) =>
    if windowHintPhrase.isPrefixOf (l.map Char.toLower) then some i
    else findPhraseFrom (i + 1) rest

/-- Replace the first occurrence of the window-hint marker (optionally
parenthesized and padded with whitespace, as the marker pattern accepts)
by the external-link icon, splicing the surrounding text around it; text
without the marker is returned unchanged. -/
def replaceWindowHintWithIcon (text : String) : RNode :=
  match findPhraseFrom 0 text.data with
  | none => .text text
  | some j =>
    let chars := text.data
    let pre := chars.take j
    let wsRun := pre.reverse.takeWhile isJsWs
    let k := j - wsRun.length
    let start := if (chars.take k).getLast? == some '(' then k - 1 else k
    let e := j + windowHintPhrase.length
    let after0 := chars.drop e
    let wsRun2 := after0.takeWhile isJsWs
    let rest2 := after0.drop wsRun2.length
    let endPos := e + wsRun2.length + (if rest2.head? == some ')' then 1 else 0)
    let before := jsTrimEnd ⟨chars.take start⟩
    let after := jsTrimStart ⟨chars.drop endPos⟩
    .fragment
      [.text before, .externalLinkIcon,
        if after == "" then .nullNode else .text (" " ++ after)]

mutual

/-- Concatenated text of the descendant text nodes. -/
def textContent : DomNode → String
  | .text s => s
  | .other => ""
  | .element _ _ children => textContentList children

def textContentList : List DomNode → String
  | [] => ""
  | n :: rest => textContent n ++ textContentList rest

end

mutual

/-- Whether the subtree rooted at the node contains an element with one
of the given (lowercase) tags, the node itself included. -/
def subtreeHasTag (tags : List String) : DomNode → Bool
  | .element t _ children =>
    tags.contains (jsToLower t) || subtreeHasTagList tags children
  | _ => false

def subtreeHasTagList (tags : List String) : List DomNode → Bool
  | [] => false
  | n :: rest => subtreeHasTag tags n || subtreeHasTagList tags rest

end

/-- Whether a descendant (the node excluded, as a selector query) is an
element with one of the given tags. -/
def hasDescendantWithTag (tags : List String) : DomNode → Bool
  | .element _ _ children => subtreeHasTagList tags children
  | _ => false

/-- Strip the leading run of dashes (en dash, em dash, hyphen) and the
whitespace after it, when present. -/
def stripLeadingDashes (s : String) : String :=
  let ds := s.data.takeWhile fun c => c == '–' || c == '—' || c == '-'
  if ds.isEmpty then s
  else ⟨(s.data.drop ds.length).dropWhile isJsWs⟩

/-- Strip a leading by-token followed by whitespace, case-insensitively,
when present. -/
def stripLeadingBy (s : String) : String :=
  match s.data with
  | b :: y :: c :: rest =>
    if b.toLower == 'b' && y.toLower == 'y' && isJsWs c then
      ⟨rest.dropWhile isJsWs⟩
    else s
  | _ => s

/-- Normalization of a candidate attribution text: collapse whitespace,
strip leading dashes, strip a leading by-token, trim. -/
def normalizeQuoteOwnerText (value : String) : String :=
  jsTrim (stripLeadingBy (stripLeadingDashes (collapseWs value)))

/-- An ASCII letter. -/
def isAsciiLetterChar (c : Char) : Bool :=
  ('a' ≤ c && c ≤ 'z') || ('A' ≤ c && c ≤ 'Z')

/-- A capitalized word: an uppercase ASCII letter followed by at least
one letter, apostrophe or hyphen (letters beyond ASCII are modelled by
the alphabetic class). -/
def isCapitalizedWord (w : String) : Bool :=
  match w.data with
  | c :: rest =>
    ('A' ≤ c && c ≤ 'Z') && !rest.isEmpty &&
      rest.all fun ch => ch.isAlpha || ch == '\'' || ch == '-'
  | [] => false

/-- Whether a pair of adjacent characters is an uppercase ASCII letter
followed by a period (the abbreviation test). -/
def containsCapDot (l : List Char) : Bool :=
  match l with
  | a :: b :: rest => (('A' ≤ a && a ≤ 'Z') && b == '.') || containsCapDot (b :: rest)
  | _ => false

/-- Heuristic for a person or byline text: three to one hundred forty
characters, at most eighteen words, containing a letter, not ending in
terminal punctuation unless an abbreviation occurs, and containing a
comma or a capitalized word. -/
def looksLikeQuoteOwner (text : String) : Bool :=
  if text == "" then false
  else if text.length < 3 || text.length > 140 then false
  else if !(text.data.any isAsciiLetterChar) then false
  else
    let words := (strSplitOnChar ' ' (collapseWs text)).filter fun w => w ≠ ""
    if words.length > 18 then false
    else if (["." , "!", "?"].any fun p => strEndsWith text p) && !containsCapDot text.data
    then false
    else jsIncludes text "," || words.any isCapitalizedWord

/-- Whether the node is a blockquote element. -/
def isBlockquoteNode : DomNode → Bool
  | .element t _ _ => jsToLower t == "blockquote"
  | _ => false

/-- Whether the node is an element (node type one). -/
def isElementNode : DomNode → Bool
  | .element _ _ _ => true
  | _ => false

/-- The attribute-setting mutation: replace the value when the name is
present, else append the pair. -/
def setAttr (attrs : List (String × String)) (name value : String) :
    List (String × String) :=
  if (List.lookup name attrs).isSome then
    attrs.map fun p => if p.1 == name then (name, value) else p
  else attrs ++ [(name, value)]

/-- Tags whose presence inside the candidate sibling blocks relocation. -/
def QUOTE_BLOCKING_TAGS : List String :=
  ["blockquote", "h1", "h2", "h3", "h4", "h5", "h6", "pre", "table", "ul",
   "ol", "figure"]

/-- Inline tags whose presence preserves the sibling markup when its text
is normalized. -/
def QUOTE_INLINE_TAGS : List String := ["a", "strong", "em", "span", "code"]

/-- Whether the next element sibling of a blockquote qualifies as its
attribution: a paragraph, division or citation element, not already
flagged, without block-level descendants, whose normalized text looks
like a byline, next to a quote of at least thirty collapsed characters. -/
def quoteOwnerQualifies (blockquote next : DomNode) : Bool :=
  match next with
  | .element tag attrs _ =>
    let t := jsToLower tag
    if !(["p", "div", "cite"].contains t) then false
    else if (List.lookup "data-quote-owner" attrs).isSome then false
    else if hasDescendantWithTag QUOTE_BLOCKING_TAGS next then false
    else
      let ownerText := normalizeQuoteOwnerText (textContent next)
      let quoteText := jsTrim (collapseWs (textContent blockquote))
      looksLikeQuoteOwner ownerText && quoteText.length ≥ 30
  | _ => false

/-- Flag the sibling as an attribution, rewriting its children to the
normalized text when it has no inline markup. -/
def markQuoteOwner (next : DomNode) : DomNode :=
  match next with
  | .element tag attrs children =>
    let ownerText := normalizeQuoteOwnerText (textContent next)
    let children' :=
      if subtreeHasTagList QUOTE_INLINE_TAGS children then children
      else [.text ownerText]
    .element tag (setAttr attrs "data-quote-owner" "true") children'
  | n => n

/-- Append a child to an element. -/
def appendChildNode (node child : DomNode) : DomNode :=
  match node with
  | .element tag attrs children => .element tag attrs (children ++ [child])
  | n => n

mutual

/-- One left-to-right scan of a sibling list: each blockquote looks past
non-element siblings to its next element sibling and, when it qualifies,
absorbs it (flagged, possibly rewritten); a non-qualifying element is
reconsidered on its own. -/
def moveQuoteScanGo : List DomNode → List DomNode
  | [] => []
  | n :: rest =>
    if isBlockquoteNode n then moveQuoteWait n [] rest
    else n :: moveQuoteScanGo rest

/-- A blockquote waiting for its next element sibling, carrying the
non-element siblings seen so far in reverse. -/
def moveQuoteWait (b : DomNode) (skipped : List DomNode) :
    List DomNode → List DomNode
  | [] => b :: skipped.reverse
  | n :: rest =>
    if isElementNode n then
      if quoteOwnerQualifies b n then
        appendChildNode b (markQuoteOwner n) ::
          (skipped.reverse ++ moveQuoteScanGo rest)
      else
        (b :: skipped.reverse) ++
          (if isBlockquoteNode n then moveQuoteWait n [] rest
           else n :: moveQuoteScanGo rest)
    else moveQuoteWait b (n :: skipped) rest

end

/-- The sibling scan of the attribution pre-pass. -/
def moveQuoteScan (l : List DomNode) : List DomNode :=
  moveQuoteScanGo l

mutual

/-- Depth of a document tree. -/
def domDepth : DomNode → Nat
  | .element _ _ children => 1 + domDepthList children
  | _ => 1

def domDepthList : List DomNode → Nat
  | [] => 0
  | n :: rest => max (domDepth n) (domDepthList rest)

end

/-- Fuelled top-down application of the sibling scan at every level, in
document order (a level's scan runs before its children are visited, as
the source visits blockquotes in document order).  A relocated sibling is
flagged and contains no blockquote, so no subtree descends more than one
extra level; depth of the tree plus two is therefore always enough fuel. -/
def moveQuoteWithFuel : Nat → DomNode → DomNode
  | 0, n => n
  | fuel + 1, .element tag attrs children =>
    .element tag attrs ((moveQuoteScan children).map (moveQuoteWithFuel fuel))
  | _ + 1, n => n

/-- The attribution pre-pass over the parsed document root. -/
def moveQuoteOwnerInsideBlockquote (root : DomNode) : DomNode :=
  moveQuoteWithFuel (domDepth root + 2) root

/-- Attribute lookup with empty default, the attribute read of the badge
test. -/
def getAttrOr (attrs : List (String × String)) (name : String) : String :=
  (List.lookup name attrs).getD ""

/-- The publisher-specific badge image test: an image whose alternative
text names the deploy badge, or whose source names both the publisher and
the deploy marker. -/
def isDeployToCloudflareBadge (tag : String) (attrs : List (String × String)) :
    Bool :=
  if jsToLower tag != "img" then false
  else
    let alt := jsToLower (getAttrOr attrs "alt")
    let src := jsToLower (getAttrOr attrs "src")
    if jsIncludes alt "deploy to cloudflare" then true
    else jsIncludes src "cloudflare" && jsIncludes src "deploy"

/-- Build the element properties: lowercase the attribute name, apply the
allow-list, rename the class attribute for React, drop an empty
hyperlink target (the hash, mail and phone special cases of the source
assign the same value as the general case), and rename the source-set
attribute. -/
def buildProps (tag : String) (attrs : List (String × String)) :
    List (String × String) :=
  attrs.foldl
    (fun props attr =>
      let attrName := jsToLower attr.1
      if !isAllowedAttribute tag attrName then props
      else if attr.1 == "class" then props ++ [("className", attr.2)]
      else if attrName == "href" then
        if jsTrim attr.2 == "" then props else props ++ [("href", attr.2)]
      else if attrName == "src" then props ++ [("src", attr.2)]
      else
        let reactAttrName := if attrName == "srcset" then "srcSet" else attrName
        props ++ [(reactAttrName, attr.2)])
    []

mutual

/-- Transform one parsed node into a renderable node; `ancestors` is the
chain of lowercased ancestor element tags, nearest first (the walk starts
below the document body). -/
def toReactNode (ancestors : List String) : DomNode → RNode
  | .text s =>
    if ancestors.any (fun t => t == "pre" || t == "code") then .text s
    else if jsTrim s == "" then
      match ancestors.head? with
      | none => .nullNode
      | some parentTag =>
        if TABLE_STRUCTURE_TAGS.contains parentTag then .nullNode
        else if INLINE_WHITESPACE_PARENTS.contains parentTag then .text " "
        else .nullNode
    else replaceWindowHintWithIcon s
  | .other => .nullNode
  | .element rawTag attrs children =>
    let tag := jsToLower rawTag
    if tag == "script" || tag == "style" then .nullNode
    else if !(ALLOWED_TAGS.contains tag) then
      .fragment (toReactNodeList (tag :: ancestors) children)
    else if tag == "br" then
      .fragment
        [.elem "br" [] [],
          .elem "span" [("className", "line-break-spacer"), ("aria-hidden", "true")] []]
    else
      let props0 := buildProps tag attrs
      let props :=
        if isDeployToCloudflareBadge rawTag attrs then
          props0 ++ [("style", "borderRadius:0")]
        else props0
      if VOID_TAGS.contains tag then .elem tag props []
      else .elem tag props (toReactNodeList (tag :: ancestors) children)

def toReactNodeList (ancestors : List String) : List DomNode → List RNode
  | [] => []
  | n :: rest => toReactNode ancestors n :: toReactNodeList ancestors rest

end

/-- The visibility test applied to the produced nodes: null is invisible,
a string is visible when its trimmed text is nonempty, anything else is
visible. -/
def hasVisibleNode : RNode → Bool
  | .nullNode => false
  | .text s => jsTrim s ≠ ""
  | _ => true

/-- Child list of the parsed body. -/
def childNodesOf : DomNode → List DomNode
  | .element _ _ children => children
  | _ => []

/-- The content transform of the component: blank input renders nothing;
without a parser the fallback splitter runs; otherwise the attribution
pre-pass mutates the parsed body, the walk maps its children, and the
result is kept only when some node is visible, else the fallback splitter
runs. -/
def contentNodes (html : String) (parsed : Option DomNode) : List RNode :=
  if jsTrim html == "" then []
  else
    match parsed with
    | none => fallbackNodesFromHtml html
    | some body =>
      let body' := moveQuoteOwnerInsideBlockquote body
      let nodes := toReactNodeList ["body", "html"] (childNodesOf body')
      if nodes.any hasVisibleNode then nodes else fallbackNodesFromHtml html

end DevFeed.Render

namespace DevFeed

/-! ## Specification predicates

Predicates used by the statements below; they are not part of the
embedded sources. -/

/-- A map model has pairwise distinct keys. -/
def NoDupKeys {β : Type} (m : List (String × β)) : Prop :=
  (m.map Prod.fst).Nodup

end DevFeed

namespace DevFeed.Coalesce

/-- Consistency of a coalescing state: both maps have distinct keys, and
a cache entry for a key with an in-flight request holds that request's
eventual result. -/
def InFlightConsistent {T : Type} (st : ResolveState T) : Prop :=
  NoDupKeys st.cache ∧ NoDupKeys st.inFlight ∧
    ∀ key request entry, mapGet st.inFlight key = some request →
      mapGet st.cache key = some entry → entry.value = request.result

end DevFeed.Coalesce

namespace DevFeed.Ranking

/-- Invariant of the entries of the deduplication map: the stored source
is the article's matched source, the recency gate passed, the stored
timestamp is the parsed published date, the stored score is the article's
score, and the stored key is the article's deduplication key. -/
def GoodCandidatePair (dparse : String → Option Int) (sources : List FeedSource)
    (now : Int) (kc : String × RankedCandidate) : Prop :=
  sourceByIdGet sources kc.2.article.sourceId = some kc.2.source ∧
  shouldKeepByLookback dparse kc.2.article kc.2.source now = true ∧
  dparse kc.2.article.publishedAt = some kc.2.publishedAtMs ∧
  kc.2.score = scoreArticleForDeveloperFeed dparse kc.2.article kc.2.source now ∧
  kc.1 = dedupeKeyFor kc.2.article

end DevFeed.Ranking

namespace DevFeed.Render

mutual

/-- Every element node in the tree carries an allow-listed tag. -/
def rNodeTagsAllowed : RNode → Bool
  | .elem tag _ children => ALLOWED_TAGS.contains tag && rNodeListTagsAllowed children
  | .fragment children => rNodeListTagsAllowed children
  | _ => true

def rNodeListTagsAllowed : List RNode → Bool
  | [] => true
  | n :: rest => rNodeTagsAllowed n && rNodeListTagsAllowed rest

end

mutual

/-- Whether an element with the given (lowercase) tag occurs in the
rendered tree. -/
def rNodeHasTag (tag : String) : RNode → Bool
  | .elem t _ children => t == tag || rNodeListHasTag tag children
  | .fragment children => rNodeListHasTag tag children
  | _ => false

def rNodeListHasTag (tag : String) : List RNode → Bool
  | [] => false
  | n :: rest => rNodeHasTag tag n || rNodeListHasTag tag rest

end

end DevFeed.Render

namespace DevFeed

/-! ## Theorems -/

/-- C8 counterexample: a feed item with no encoded-content field, a bare
content field and no snippet resolves with the full content mode, so the
mode is not reserved for items whose encoded content is present and
clearly longer than a snippet. -/
theorem content_mode_full_without_encoded :
    (Server.resolveFeedItemContent
        ⟨none, none, none, none, some "x", none, none⟩).contentMode =
      Server.ContentMode.full ∧
    (⟨none, none, none, none, some "x", none, none⟩ :
        Server.FeedItemWithEncoded).contentEncoded = none ∧
    (Server.resolveFeedItemContent
        ⟨none, none, none, some "hi", none, none, none⟩).contentMode =
      Server.ContentMode.full := by
  decide

/-- C8 amended: the fallback content mode is full exactly when the
trimmed encoded content is nonempty, or the trimmed content field is
nonempty and the trimmed snippet is empty, or the trimmed content field
is more than two hundred characters longer than the nonempty trimmed
snippet; it is summary in every other case. -/
theorem content_mode_rule (item : Server.FeedItemWithEncoded) :
    (Server.resolveFeedItemContent item).contentMode = Server.ContentMode.full ↔
      (Server.optTrim item.contentEncoded ≠ "" ∨
        (Server.optTrim item.content ≠ "" ∧ Server.optTrim item.contentSnippet = "") ∨
        (Server.optTrim item.content ≠ "" ∧ Server.optTrim item.contentSnippet ≠ "" ∧
          (Server.optTrim item.contentSnippet).length + 200 <
            (Server.optTrim item.content).length)) := by
  unfold Server.resolveFeedItemContent
  dsimp only
  split
  · rename_i h
    simpa using h
  · rename_i h
    constructor
    · intro hcontra
      exact absurd hcontra (by decide)
    · intro hr
      exact absurd hr h

/-- C8 witness: the amended full-mode rule instantiated at a concrete
item carrying only a bare content field. -/
theorem content_mode_rule_witness :
    (Server.resolveFeedItemContent
        (⟨none, none, none, none, some "x", none, none⟩ :
          Server.FeedItemWithEncoded)).contentMode =
        Server.ContentMode.full ↔
      (Server.optTrim (none : Option String) ≠ "" ∨
        (Server.optTrim (some "x") ≠ "" ∧
          Server.optTrim (none : Option String) = "") ∨
        (Server.optTrim (some "x") ≠ "" ∧
          Server.optTrim (none : Option String) ≠ "" ∧
          (Server.optTrim (none : Option String)).length + 200 <
            (Server.optTrim (some "x")).length)) :=
  content_mode_rule ⟨none, none, none, none, some "x", none, none⟩

/-- C2: the recency gate keeps an article whose age (ten days) exceeds
the source lookback window (fourteen configured, capped to the global
seven): the article survives ranking, so the per-source lookback window
is not enforced as a drop rule. -/
theorem lookback_gate_not_enforced :
    Ranking.rankAndFilterArticlesForDeveloperFeed
        (fun s => if s = "P" then (some 0 : Option Int) else none)
        [⟨"a1", "Old Post", "s", "S", "", none, "https://example.com/old-post",
          "P", "", [], none, none⟩]
        [⟨"s", "S", "https://example.com/feed", "https://example.com", "",
          some .core, some 14, none, none, none, none, none⟩]
        ⟨864000000, none⟩ =
      [⟨"a1", "Old Post", "s", "S", "", none, "https://example.com/old-post",
        "P", "", [], none, none⟩] ∧
    Ranking.resolveLookbackDays
        ⟨"s", "S", "https://example.com/feed", "https://example.com", "",
          some .core, some 14, none, none, none, none, none⟩ = 7 ∧
    Ranking.ageInDays (fun s => if s = "P" then (some 0 : Option Int) else none)
        "P" 864000000 = some 10 := by
  decide

/-- C10: the server and client key normalizations disagree: one article
URL carrying a tracking parameter shares its server cache key with the
clean URL, while the two client cache keys are distinct because the
client keeps the query verbatim. -/
theorem client_server_cache_keys_differ :
    Server.getArticleCacheKey "https://example.com/post?utm_source=rss" none =
      Server.getArticleCacheKey "https://example.com/post" none ∧
    ClientCache.getCacheKey "https://example.com/post?utm_source=rss" none ≠
      ClientCache.getCacheKey "https://example.com/post" none ∧
    Server.getArticleCacheKey "https://example.com/post?utm_source=rss" none =
      "::https://example.com/post" ∧
    ClientCache.getCacheKey "https://example.com/post?utm_source=rss" none =
      "::https://example.com/post?utm_source=rss" := by
  decide

/-- C6: the content transform is a total function which always returns
one of three well-defined node sequences (nothing for blank input, the
walked tree, or the plain-text fallback); when the parser is unavailable
or fails it returns the fallback, and when the walk yields no visible
node it also returns the fallback. -/
theorem transform_totality_fallback (html : String) (parsed : Option Render.DomNode) :
    (Render.contentNodes html parsed = [] ∨
      Render.contentNodes html parsed = Render.fallbackNodesFromHtml html ∨
      ∃ body, parsed = some body ∧
        Render.contentNodes html parsed =
          Render.toReactNodeList ["body", "html"]
            (Render.childNodesOf (Render.moveQuoteOwnerInsideBlockquote body))) ∧
    (jsTrim html ≠ "" → parsed = none →
      Render.contentNodes html parsed = Render.fallbackNodesFromHtml html) ∧
    (∀ body, jsTrim html ≠ "" → parsed = some body →
      (Render.toReactNodeList ["body", "html"]
          (Render.childNodesOf (Render.moveQuoteOwnerInsideBlockquote body))).any
          Render.hasVisibleNode = false →
      Render.contentNodes html parsed = Render.fallbackNodesFromHtml html) := by
  unfold Render.contentNodes
  by_cases hblank : (jsTrim html == "") = true
  · rw [if_pos hblank]
    refine ⟨Or.inl rfl, ?_, ?_⟩
    · intro hne _
      exact absurd (by simpa using hblank) hne
    · intro _ hne _ _
      exact absurd (by simpa using hblank) hne
  · rw [if_neg hblank]
    cases parsed with
    | none =>
      refine ⟨Or.inr (Or.inl rfl), fun _ _ => rfl, ?_⟩
      intro body _ hcontra
      exact absurd hcontra (by simp)
    | some body =>
      dsimp only
      by_cases hvis :
          ((Render.toReactNodeList ["body", "html"]
            (Render.childNodesOf (Render.moveQuoteOwnerInsideBlockquote body))).any
            Render.hasVisibleNode) = true
      · rw [if_pos hvis]
        refine ⟨Or.inr (Or.inr ⟨body, rfl, rfl⟩), ?_, ?_⟩
        · intro _ hcontra
          exact absurd hcontra (by simp)
        · intro body' _ hsome hfalse
          cases hsome
          rw [hvis] at hfalse
          cases hfalse
      · rw [if_neg hvis]
        refine ⟨Or.inr (Or.inl rfl), ?_, fun _ _ _ _ => rfl⟩
        intro _ hcontra
        exact absurd hcontra (by simp)

/-- C6 witness: a concrete unparsed input degrades to the fallback, and a
concrete parsed body with no visible node also degrades to the fallback. -/
theorem transform_totality_fallback_witness :
    Render.contentNodes "<p>hello</p>" none =
      Render.fallbackNodesFromHtml "<p>hello</p>" ∧
    Render.contentNodes "<p>hello</p>" (some (.element "body" [] [])) =
      Render.fallbackNodesFromHtml "<p>hello</p>" := by
  constructor
  · exact (transform_totality_fallback "<p>hello</p>" none).2.1 (by decide) rfl
  · exact (transform_totality_fallback "<p>hello</p>"
      (some (.element "body" [] []))).2.2 (.element "body" [] []) (by decide) rfl (by decide)

end DevFeed

namespace DevFeed

/-! ### Association-map lemmas -/

theorem mapGet_cons {β : Type} (a : String) (b : β) (m : List (String × β))
    (k : String) :
    mapGet ((a, b) :: m) k = if k = a then some b else mapGet m k := by
  by_cases h : k = a
  · simp [mapGet, List.lookup, h]
  · simp [mapGet, List.lookup, beq_false_of_ne h, h]

theorem mapGet_mem {β : Type} {m : List (String × β)} {k : String} {v : β}
    (h : mapGet m k = some v) : (k, v) ∈ m := by
  induction m with
  | nil => simp [mapGet, List.lookup] at h
  | cons p rest ih =>
    obtain ⟨a, b⟩ := p
    rw [mapGet_cons] at h
    by_cases hk : k = a
    · rw [if_pos hk] at h
      cases h
      simp [hk]
    · rw [if_neg hk] at h
      exact List.mem_cons_of_mem _ (ih h)

theorem mapGet_eq_none {β : Type} {m : List (String × β)} {k : String}
    (h : mapGet m k = none) : ∀ p ∈ m, p.1 ≠ k := by
  induction m with
  | nil => simp
  | cons p rest ih =>
    obtain ⟨a, b⟩ := p
    rw [mapGet_cons] at h
    by_cases hk : k = a
    · rw [if_pos hk] at h
      cases h
    · rw [if_neg hk] at h
      intro q hq
      rcases List.mem_cons.mp hq with hq | hq
      · cases hq
        exact fun hc => hk hc.symm
      · exact ih h q hq

theorem mapGet_append_left_none {β : Type} {m : List (String × β)} {k : String}
    (h : ∀ p ∈ m, p.1 ≠ k) (m' : List (String × β)) :
    mapGet (m ++ m') k = mapGet m' k := by
  induction m with
  | nil => rfl
  | cons p rest ih =>
    obtain ⟨a, b⟩ := p
    rw [List.cons_append, mapGet_cons,
      if_neg (fun hc => (h (a, b) (by simp)) hc.symm)]
    exact ih fun q hq => h q (List.mem_cons_of_mem _ hq)

theorem mapGet_append {β : Type} (m m' : List (String × β)) (k : String) :
    mapGet (m ++ m') k =
      match mapGet m k with
      | some v => some v
      | none => mapGet m' k := by
  induction m with
  | nil => rfl
  | cons p rest ih =>
    obtain ⟨a, b⟩ := p
    by_cases hk : k = a
    · simp [List.cons_append, mapGet_cons, hk]
    · simpa [List.cons_append, mapGet_cons, hk] using ih

theorem mapErase_keys_ne {β : Type} (m : List (String × β)) (k : String) :
    ∀ p ∈ mapErase m k, p.1 ≠ k := by
  intro p hp
  have := List.of_mem_filter hp
  simpa using this

theorem mapErase_mem {β : Type} {m : List (String × β)} {k : String}
    {p : String × β} (hp : p ∈ mapErase m k) : p ∈ m :=
  List.mem_of_mem_filter hp

theorem mapGet_erase {β : Type} (m : List (String × β)) (k k' : String) :
    mapGet (mapErase m k) k' = if k' = k then none else mapGet m k' := by
  induction m with
  | nil => simp [mapErase, mapGet, List.lookup]
  | cons p rest ih =>
    obtain ⟨a, b⟩ := p
    by_cases hak : a = k
    · subst hak
      by_cases hk : k' = a <;>
        simpa [mapErase, List.filter_cons, mapGet_cons, hk] using ih
    · by_cases hk : k' = a
      · subst hk
        simp [mapErase, List.filter_cons, hak, mapGet_cons, Ne.symm hak,
          bne_iff_ne]
      · simpa [mapErase, List.filter_cons, hak, mapGet_cons, hk, bne_iff_ne]
          using ih

theorem mapGet_replace {β : Type} (m : List (String × β)) (k : String) (v : β)
    (k' : String) :
    mapGet (m.map fun p => if p.1 == k then (k, v) else p) k' =
      if k' = k then (mapGet m k).map (fun _ => v) else mapGet m k' := by
  induction m with
  | nil => by_cases hk : k' = k <;> simp [mapGet, List.lookup, hk]
  | cons p rest ih =>
    obtain ⟨a, b⟩ := p
    by_cases hak : a = k <;> by_cases h1 : k' = a <;> by_cases h2 : k' = k <;>
      simp_all [List.map_cons, mapGet_cons, beq_iff_eq]

theorem mapGet_set {β : Type} (m : List (String × β)) (k : String) (v : β)
    (k' : String) :
    mapGet (mapSet m k v) k' = if k' = k then some v else mapGet m k' := by
  unfold mapSet
  by_cases hp : (mapGet m k).isSome
  · rw [if_pos hp, mapGet_replace]
    by_cases hk : k' = k
    · obtain ⟨w, hw⟩ := Option.isSome_iff_exists.mp hp
      simp [hk, hw]
    · simp [hk]
  · rw [if_neg hp]
    have hnone : mapGet m k = none := by
      cases h : mapGet m k
      · rfl
      · rw [h] at hp
        simp at hp
    have hne := mapGet_eq_none hnone
    by_cases hk : k' = k
    · subst hk
      rw [mapGet_append_left_none hne, mapGet_cons]
      simp
    · rw [mapGet_append]
      cases hg : mapGet m k'
      · simp [mapGet_cons, hk, mapGet, List.lookup, beq_false_of_ne hk]
      · simp [hk]

theorem noDupKeys_nil {β : Type} : NoDupKeys ([] : List (String × β)) := by
  simp [NoDupKeys]

theorem noDupKeys_erase {β : Type} {m : List (String × β)} (h : NoDupKeys m)
    (k : String) : NoDupKeys (mapErase m k) :=
  List.Nodup.sublist (List.Sublist.map Prod.fst (List.filter_sublist m)) h

theorem noDupKeys_set {β : Type} {m : List (String × β)} (h : NoDupKeys m)
    (k : String) (v : β) : NoDupKeys (mapSet m k v) := by
  unfold mapSet
  by_cases hp : (mapGet m k).isSome
  · rw [if_pos hp]
    unfold NoDupKeys at *
    have hkeys : (List.map (fun p => if p.1 == k then (k, v) else p) m).map Prod.fst =
        m.map Prod.fst := by
      rw [List.map_map]
      apply List.map_congr_left
      intro p _
      by_cases hpk : p.1 = k
      · simp [hpk]
      · simp [beq_false_of_ne hpk, hpk]
    rw [hkeys]
    exact h
  · rw [if_neg hp]
    have hnone : mapGet m k = none := Option.not_isSome_iff_eq_none.mp hp
    have hne := mapGet_eq_none hnone
    unfold NoDupKeys at *
    rw [List.map_append]
    rw [List.nodup_append]
    refine ⟨h, by simp, ?_⟩
    intro x hx
    simp only [List.map_cons, List.map_nil, List.mem_singleton]
    intro hxk
    subst hxk
    obtain ⟨p, hp', hfst⟩ := List.mem_map.mp hx
    exact hne p hp' hfst

theorem mapGet_of_mem_nodup {β : Type} {m : List (String × β)} {k : String}
    {v : β} (h : NoDupKeys m) (hmem : (k, v) ∈ m) : mapGet m k = some v := by
  induction m with
  | nil => cases hmem
  | cons p rest ih =>
    obtain ⟨a, b⟩ := p
    rcases List.mem_cons.mp hmem with heq | hmem'
    · cases heq
      rw [mapGet_cons, if_pos rfl]
    · have hk : k ≠ a := by
        intro hc
        have hnotin : a ∉ rest.map Prod.fst := by
          unfold NoDupKeys at h
          rw [List.map_cons] at h
          exact (List.nodup_cons.mp h).1
        exact hnotin (List.mem_map.mpr ⟨(k, v), hmem', hc⟩)
      rw [mapGet_cons, if_neg hk]
      apply ih ?_ hmem'
      unfold NoDupKeys at h ⊢
      rw [List.map_cons] at h
      exact (List.nodup_cons.mp h).2

theorem mapGet_drop {β : Type} {m : List (String × β)} {k : String} {v : β}
    (h : NoDupKeys m) {n : Nat} (hd : mapGet (m.drop n) k = some v) :
    mapGet m k = some v :=
  mapGet_of_mem_nodup h (List.drop_subset n m (mapGet_mem hd))

theorem noDupKeys_drop {β : Type} {m : List (String × β)} (h : NoDupKeys m)
    (n : Nat) : NoDupKeys (m.drop n) := by
  unfold NoDupKeys at *
  exact List.Nodup.sublist (List.Sublist.map Prod.fst (List.drop_sublist n m)) h

end DevFeed

namespace DevFeed.Coalesce

theorem noDupKeys_append_fresh {β : Type} {m : List (String × β)} {k : String}
    (h : NoDupKeys m) (hno : ∀ p ∈ m, p.1 ≠ k) (v : β) :
    NoDupKeys (m ++ [(k, v)]) := by
  unfold NoDupKeys at *
  rw [List.map_append, List.nodup_append]
  refine ⟨h, by simp, ?_⟩
  intro x hx
  simp only [List.map_cons, List.map_nil, List.mem_singleton]
  intro hxk
  subst hxk
  obtain ⟨p, hp', hfst⟩ := List.mem_map.mp hx
  exact hno p hp' hfst

theorem noDupKeys_evict {β : Type} {m : List (String × β)} (h : NoDupKeys m)
    (maxEntries : Nat) :
    NoDupKeys (if m.length > maxEntries then m.drop (m.length - maxEntries) else m) := by
  split
  · exact noDupKeys_drop h _
  · exact h

theorem mapGet_evict_fresh {β : Type} {m : List (String × β)} {k : String}
    {v : β} (hno : ∀ p ∈ m, p.1 ≠ k) {maxEntries : Nat} (hmax : 1 ≤ maxEntries) :
    mapGet
      (if (m ++ [(k, v)]).length > maxEntries then
        (m ++ [(k, v)]).drop ((m ++ [(k, v)]).length - maxEntries)
      else m ++ [(k, v)]) k = some v := by
  split
  · have hn : (m ++ [(k, v)]).length - maxEntries ≤ m.length := by
      rw [List.length_append]
      simp only [List.length_cons, List.length_nil]
      omega
    rw [List.drop_append_of_le_length hn,
      mapGet_append_left_none (fun p hp => hno p (List.drop_subset _ _ hp)),
      mapGet_cons, if_pos rfl]
  · rw [mapGet_append_left_none hno, mapGet_cons, if_pos rfl]

theorem mapGet_evict_fresh_cases {β : Type} {m : List (String × β)} {k : String}
    {v : β} (h : NoDupKeys m) (hno : ∀ p ∈ m, p.1 ≠ k) {maxEntries : Nat}
    {k' : String} {e' : β}
    (hget : mapGet
      (if (m ++ [(k, v)]).length > maxEntries then
        (m ++ [(k, v)]).drop ((m ++ [(k, v)]).length - maxEntries)
      else m ++ [(k, v)]) k' = some e') :
    (k' = k ∧ e' = v) ∨ (k' ≠ k ∧ mapGet m k' = some e') := by
  have hbase : NoDupKeys (m ++ [(k, v)]) := noDupKeys_append_fresh h hno v
  have hget2 : mapGet (m ++ [(k, v)]) k' = some e' := by
    revert hget
    split
    · intro hget
      exact mapGet_drop hbase hget
    · intro hget
      exact hget
  by_cases hk : k' = k
  · subst hk
    rw [mapGet_append_left_none hno, mapGet_cons, if_pos rfl] at hget2
    cases hget2
    exact Or.inl ⟨rfl, rfl⟩
  · right
    refine ⟨hk, ?_⟩
    rw [mapGet_append] at hget2
    cases hg : mapGet m k' with
    | none =>
      rw [hg] at hget2
      rw [mapGet_cons, if_neg hk] at hget2
      simp [mapGet, List.lookup] at hget2
    | some e2 =>
      rw [hg] at hget2
      exact hget2

theorem setCachedValue_get_self {T : Type}
    (cache : List (String × TimedCacheEntry T)) (key : String) (value : T)
    (now ttlMs : Int) (maxEntries : Nat) (hmax : 1 ≤ maxEntries) :
    mapGet (setCachedValue cache key value now ttlMs maxEntries) key =
      some ⟨value, now + ttlMs⟩ := by
  simp only [setCachedValue, evictOldest]
  split
  · exact mapGet_evict_fresh (mapErase_keys_ne _ _) hmax
  · rename_i hnot
    exact mapGet_evict_fresh
      (mapGet_eq_none (Option.not_isSome_iff_eq_none.mp hnot)) hmax

theorem setCachedValue_noDupKeys {T : Type}
    {cache : List (String × TimedCacheEntry T)} (h : NoDupKeys cache)
    (key : String) (value : T) (now ttlMs : Int) (maxEntries : Nat) :
    NoDupKeys (setCachedValue cache key value now ttlMs maxEntries) := by
  simp only [setCachedValue, evictOldest]
  split
  · exact noDupKeys_evict
      (noDupKeys_append_fresh (noDupKeys_erase h key) (mapErase_keys_ne _ _) _) _
  · rename_i hnot
    exact noDupKeys_evict
      (noDupKeys_append_fresh h
        (mapGet_eq_none (Option.not_isSome_iff_eq_none.mp hnot)) _) _

theorem setCachedValue_get_cases {T : Type}
    {cache : List (String × TimedCacheEntry T)} (h : NoDupKeys cache)
    (key : String) (value : T) (now ttlMs : Int) (maxEntries : Nat)
    {k' : String} {e' : TimedCacheEntry T}
    (hget : mapGet (setCachedValue cache key value now ttlMs maxEntries) k' = some e') :
    (k' = key ∧ e' = ⟨value, now + ttlMs⟩) ∨
      (k' ≠ key ∧ mapGet cache k' = some e') := by
  simp only [setCachedValue, evictOldest] at hget
  revert hget
  split
  · intro hget
    rcases mapGet_evict_fresh_cases (noDupKeys_erase h key)
        (mapErase_keys_ne _ _) hget with hone | ⟨hne, hrest⟩
    · exact Or.inl hone
    · refine Or.inr ⟨hne, ?_⟩
      rw [mapGet_erase, if_neg hne] at hrest
      exact hrest
  · rename_i hnot
    intro hget
    exact mapGet_evict_fresh_cases h
      (mapGet_eq_none (Option.not_isSome_iff_eq_none.mp hnot)) hget

theorem getCachedValue_hit {T : Type}
    {cache : List (String × TimedCacheEntry T)} {key : String} {now : Int}
    {v : T} {cache' : List (String × TimedCacheEntry T)}
    (h : getCachedValue cache key now = (some v, cache')) :
    ∃ e, mapGet cache key = some e ∧ e.value = v ∧ cache' = cache := by
  unfold getCachedValue at h
  cases hg : mapGet cache key with
  | none =>
    rw [hg] at h
    simp at h
  | some e =>
    rw [hg] at h
    dsimp only at h
    by_cases hexp : e.expiresAt ≤ now
    · rw [if_pos hexp] at h
      simp at h
    · rw [if_neg hexp, Prod.mk.injEq] at h
      exact ⟨e, rfl, Option.some.inj h.1, h.2.symm⟩

theorem getCachedValue_miss_key {T : Type}
    {cache : List (String × TimedCacheEntry T)} {key : String} {now : Int}
    {cache' : List (String × TimedCacheEntry T)}
    (h : getCachedValue cache key now = (none, cache')) :
    mapGet cache' key = none := by
  unfold getCachedValue at h
  cases hg : mapGet cache key with
  | none =>
    rw [hg] at h
    dsimp only at h
    rw [Prod.mk.injEq] at h
    rw [← h.2]
    exact hg
  | some e =>
    rw [hg] at h
    dsimp only at h
    by_cases hexp : e.expiresAt ≤ now
    · rw [if_pos hexp, Prod.mk.injEq] at h
      rw [← h.2, mapGet_erase, if_pos rfl]
    · rw [if_neg hexp] at h
      simp at h

theorem getCachedValue_snd_get {T : Type}
    {cache : List (String × TimedCacheEntry T)} (key : String) (now : Int)
    {k' : String} {e' : TimedCacheEntry T}
    (h : mapGet (getCachedValue cache key now).2 k' = some e') :
    mapGet cache k' = some e' := by
  unfold getCachedValue at h
  cases hg : mapGet cache key with
  | none =>
    rw [hg] at h
    exact h
  | some e =>
    rw [hg] at h
    dsimp only at h
    by_cases hexp : e.expiresAt ≤ now
    · rw [if_pos hexp] at h
      dsimp only at h
      rw [mapGet_erase] at h
      by_cases hk : k' = key
      · rw [if_pos hk] at h
        cases h
      · rw [if_neg hk] at h
        exact h
    · rw [if_neg hexp] at h
      exact h

theorem getCachedValue_snd_noDupKeys {T : Type}
    {cache : List (String × TimedCacheEntry T)} (h : NoDupKeys cache)
    (key : String) (now : Int) :
    NoDupKeys (getCachedValue cache key now).2 := by
  unfold getCachedValue
  cases hg : mapGet cache key with
  | none => exact h
  | some e =>
    dsimp only
    by_cases hexp : e.expiresAt ≤ now
    · rw [if_pos hexp]
      exact noDupKeys_erase h key
    · rw [if_neg hexp]
      exact h

theorem getCachedValue_expired {T : Type}
    {cache : List (String × TimedCacheEntry T)} {key : String} {now : Int}
    {e : TimedCacheEntry T} (h : mapGet cache key = some e)
    (hexp : e.expiresAt ≤ now) :
    getCachedValue cache key now = (none, mapErase cache key) := by
  unfold getCachedValue
  rw [h]
  dsimp only
  rw [if_pos hexp]

theorem resolveStep_expired_restarts {T : Type}
    (getKey : String → Option String → String)
    (st : ResolveState T) (url : String) (sourceFeedUrl : Option String)
    (now : Int) (fresh : PendingRequest T) (e : TimedCacheEntry T)
    (hf : st.inFlight = [])
    (hc : mapGet st.cache (getKey url sourceFeedUrl) = some e)
    (hexp : e.expiresAt ≤ now) :
    (resolveStep getKey st url sourceFeedUrl now fresh).1 =
      ResolveOutcome.startFetch fresh := by
  simp only [resolveStep]
  rw [getCachedValue_expired hc hexp]
  dsimp only
  rw [hf]
  rfl

end DevFeed.Coalesce

namespace DevFeed.Coalesce

theorem stepR_preserves_consistent {T : Type}
    (getKey : String → Option String → String) (ttlFor : T → Int)
    (maxEntries : Nat) {st st' : ResolveState T}
    (h : InFlightConsistent st) (hstep : StepR getKey ttlFor maxEntries st st') :
    InFlightConsistent st' := by
  obtain ⟨hcache, hflight, hagree⟩ := h
  cases hstep with
  | call url sourceFeedUrl now fresh =>
    simp only [resolveStep]
    rcases hgv : getCachedValue st.cache (getKey url sourceFeedUrl) now with ⟨o, cache'⟩
    have hsnd : (getCachedValue st.cache (getKey url sourceFeedUrl) now).2 = cache' := by
      rw [hgv]
    have hcache' : NoDupKeys cache' := by
      rw [← hsnd]
      exact getCachedValue_snd_noDupKeys hcache _ _
    have hback : ∀ k' e', mapGet cache' k' = some e' → mapGet st.cache k' = some e' := by
      intro k' e' hk'
      exact @getCachedValue_snd_get T st.cache _ now k' e' (by rw [hsnd]; exact hk')
    cases o with
    | some v =>
      refine ⟨hcache', hflight, ?_⟩
      intro key' req' e' hreq' he'
      exact hagree key' req' e' hreq' (hback _ _ he')
    | none =>
      cases hif : mapGet st.inFlight (getKey url sourceFeedUrl) with
      | some pending =>
        refine ⟨hcache', hflight, ?_⟩
        intro key' req' e' hreq' he'
        exact hagree key' req' e' hreq' (hback _ _ he')
      | none =>
        refine ⟨hcache', noDupKeys_set hflight _ _, ?_⟩
        intro key' req' e' hreq' he'
        rw [mapGet_set] at hreq'
        by_cases hk : key' = getKey url sourceFeedUrl
        · rw [if_pos hk] at hreq'
          have hmiss : mapGet cache' (getKey url sourceFeedUrl) = none :=
            getCachedValue_miss_key hgv
          rw [hk] at he'
          rw [hmiss] at he'
          cases he'
        · rw [if_neg hk] at hreq'
          exact hagree key' req' e' hreq' (hback _ _ he')
  | settle key request now hreq =>
    refine ⟨setCachedValue_noDupKeys hcache _ _ _ _ _, hflight, ?_⟩
    intro key' req' e' hreq' he'
    simp only [settleStep] at hreq' he'
    rcases setCachedValue_get_cases hcache key request.result now
        (ttlFor request.result) maxEntries he' with ⟨hk, hval⟩ | ⟨hk, hold⟩
    · subst hk
      rw [hreq] at hreq'
      cases hreq'
      rw [hval]
    · exact hagree key' req' e' hreq' hold
  | cleanup key =>
    refine ⟨hcache, noDupKeys_erase hflight key, ?_⟩
    intro key' req' e' hreq' he'
    simp only [cleanupStep] at hreq' he'
    rw [mapGet_erase] at hreq'
    by_cases hk : key' = key
    · rw [if_pos hk] at hreq'
      cases hreq'
    · rw [if_neg hk] at hreq'
      exact hagree key' req' e' hreq' he'

theorem reachable_consistent {T : Type}
    (getKey : String → Option String → String) (ttlFor : T → Int)
    (maxEntries : Nat) {st : ResolveState T}
    (h : Reachable getKey ttlFor maxEntries st) : InFlightConsistent st := by
  induction h with
  | init =>
    refine ⟨noDupKeys_nil, noDupKeys_nil, ?_⟩
    intro key req e hreq _
    cases hreq
  | step st st' _ hstep ih =>
    exact stepR_preserves_consistent getKey ttlFor maxEntries ih hstep

theorem resolveStep_coalesces {T : Type}
    (getKey : String → Option String → String) (ttlFor : T → Int)
    (maxEntries : Nat) {st : ResolveState T}
    (hreach : Reachable getKey ttlFor maxEntries st)
    (url : String) (sourceFeedUrl : Option String) (now : Int)
    (fresh : PendingRequest T) {request : PendingRequest T}
    (hin : mapGet st.inFlight (getKey url sourceFeedUrl) = some request) :
    ((resolveStep getKey st url sourceFeedUrl now fresh).1 =
        ResolveOutcome.awaitExisting request ∨
      (resolveStep getKey st url sourceFeedUrl now fresh).1 =
        ResolveOutcome.cached request.result) ∧
    (resolveStep getKey st url sourceFeedUrl now fresh).2.inFlight = st.inFlight := by
  have hcons := reachable_consistent getKey ttlFor maxEntries hreach
  simp only [resolveStep]
  rcases hgv : getCachedValue st.cache (getKey url sourceFeedUrl) now with ⟨o, cache'⟩
  cases o with
  | some v =>
    obtain ⟨e, hmem, hval, _⟩ := getCachedValue_hit hgv
    have : e.value = request.result := hcons.2.2 _ request e hin hmem
    refine ⟨Or.inr ?_, rfl⟩
    rw [← this, hval]
  | none =>
    rw [hin]
    exact ⟨Or.inl rfl, rfl⟩

end DevFeed.Coalesce

namespace DevFeed

/-- C1: in any reachable state of either cache, while a request for a key
is in flight, a further call with that key returns the in-flight pending
result (or its already-settled value, which is the same eventual
outcome), and no second underlying fetch is started: the in-flight map is
unchanged and no fresh request is registered. -/
theorem coalescing_single_flight :
    (∀ st, ClientCache.ClientReachable st →
      ∀ url sourceFeedUrl now fresh request,
        mapGet st.inFlight (ClientCache.getCacheKey url sourceFeedUrl) = some request →
        ((ClientCache.loadArticleContentStep st url sourceFeedUrl now fresh).1 =
            Coalesce.ResolveOutcome.awaitExisting request ∨
          (ClientCache.loadArticleContentStep st url sourceFeedUrl now fresh).1 =
            Coalesce.ResolveOutcome.cached request.result) ∧
        (ClientCache.loadArticleContentStep st url sourceFeedUrl now fresh).2.inFlight =
          st.inFlight) ∧
    (∀ st, Server.ServerReachable st →
      ∀ url sourceFeedUrl now fresh request,
        mapGet st.inFlight (Server.getArticleCacheKey url sourceFeedUrl) = some request →
        ((Server.fetchArticleContentStep st url sourceFeedUrl now fresh).1 =
            Coalesce.ResolveOutcome.awaitExisting request ∨
          (Server.fetchArticleContentStep st url sourceFeedUrl now fresh).1 =
            Coalesce.ResolveOutcome.cached request.result) ∧
        (Server.fetchArticleContentStep st url sourceFeedUrl now fresh).2.inFlight =
          st.inFlight) := by
  constructor
  · intro st hreach url sourceFeedUrl now fresh request hin
    exact Coalesce.resolveStep_coalesces ClientCache.getCacheKey ClientCache.ttlMsFor
      ClientCache.ARTICLE_CACHE_MAX_ENTRIES hreach url sourceFeedUrl now fresh hin
  · intro st hreach url sourceFeedUrl now fresh request hin
    exact Coalesce.resolveStep_coalesces Server.getArticleCacheKey Server.ttlMsFor
      Server.ARTICLE_RESULT_CACHE_MAX_ENTRIES hreach url sourceFeedUrl now fresh hin

/-- C1 witness: after one call starts a fetch from the empty state, a
second call for the same key awaits the existing request and leaves the
in-flight map unchanged, on both the client and the server. -/
theorem coalescing_single_flight_witness :
    (((ClientCache.loadArticleContentStep (ClientCache.loadArticleContentStep ⟨[], []⟩ "notaurl" none 0 ⟨0, .err ⟨"x"⟩⟩).2 "notaurl" none 0 ⟨1, .err ⟨"y"⟩⟩).1 =
        Coalesce.ResolveOutcome.awaitExisting (⟨0, .err ⟨"x"⟩⟩ : Coalesce.PendingRequest Server.FetchArticleResult) ∨
      (ClientCache.loadArticleContentStep (ClientCache.loadArticleContentStep ⟨[], []⟩ "notaurl" none 0 ⟨0, .err ⟨"x"⟩⟩).2 "notaurl" none 0 ⟨1, .err ⟨"y"⟩⟩).1 =
        Coalesce.ResolveOutcome.cached (⟨0, .err ⟨"x"⟩⟩ : Coalesce.PendingRequest Server.FetchArticleResult).result) ∧
      (ClientCache.loadArticleContentStep (ClientCache.loadArticleContentStep ⟨[], []⟩ "notaurl" none 0 ⟨0, .err ⟨"x"⟩⟩).2 "notaurl" none 0 ⟨1, .err ⟨"y"⟩⟩).2.inFlight =
        (ClientCache.loadArticleContentStep ⟨[], []⟩ "notaurl" none 0 ⟨0, .err ⟨"x"⟩⟩).2.inFlight) ∧
    (((Server.fetchArticleContentStep (Server.fetchArticleContentStep ⟨[], []⟩ "notaurl" none 0 ⟨0, .err ⟨"x"⟩⟩).2 "notaurl" none 0 ⟨1, .err ⟨"y"⟩⟩).1 =
        Coalesce.ResolveOutcome.awaitExisting (⟨0, .err ⟨"x"⟩⟩ : Coalesce.PendingRequest Server.FetchArticleResult) ∨
      (Server.fetchArticleContentStep (Server.fetchArticleContentStep ⟨[], []⟩ "notaurl" none 0 ⟨0, .err ⟨"x"⟩⟩).2 "notaurl" none 0 ⟨1, .err ⟨"y"⟩⟩).1 =
        Coalesce.ResolveOutcome.cached (⟨0, .err ⟨"x"⟩⟩ : Coalesce.PendingRequest Server.FetchArticleResult).result) ∧
      (Server.fetchArticleContentStep (Server.fetchArticleContentStep ⟨[], []⟩ "notaurl" none 0 ⟨0, .err ⟨"x"⟩⟩).2 "notaurl" none 0 ⟨1, .err ⟨"y"⟩⟩).2.inFlight =
        (Server.fetchArticleContentStep ⟨[], []⟩ "notaurl" none 0 ⟨0, .err ⟨"x"⟩⟩).2.inFlight) := by
  have hreachC : ClientCache.ClientReachable
      (ClientCache.loadArticleContentStep ⟨[], []⟩ "notaurl" none 0 ⟨0, .err ⟨"x"⟩⟩).2 :=
    Coalesce.Reachable.step _ _ Coalesce.Reachable.init
      (@Coalesce.StepR.call _ ClientCache.getCacheKey ClientCache.ttlMsFor
        ClientCache.ARTICLE_CACHE_MAX_ENTRIES ⟨[], []⟩ "notaurl" none 0
        ⟨0, .err ⟨"x"⟩⟩)
  have hreachS : Server.ServerReachable
      (Server.fetchArticleContentStep ⟨[], []⟩ "notaurl" none 0 ⟨0, .err ⟨"x"⟩⟩).2 :=
    Coalesce.Reachable.step _ _ Coalesce.Reachable.init
      (@Coalesce.StepR.call _ Server.getArticleCacheKey Server.ttlMsFor
        Server.ARTICLE_RESULT_CACHE_MAX_ENTRIES ⟨[], []⟩ "notaurl" none 0
        ⟨0, .err ⟨"x"⟩⟩)
  refine ⟨?_, ?_⟩
  · exact coalescing_single_flight.1 _ hreachC "notaurl" none 0 ⟨1, .err ⟨"y"⟩⟩
      ⟨0, .err ⟨"x"⟩⟩ (by decide)
  · exact coalescing_single_flight.2 _ hreachS "notaurl" none 0 ⟨1, .err ⟨"y"⟩⟩
      ⟨0, .err ⟨"x"⟩⟩ (by decide)

/-- C5: a failure entry is stored with a thirty-second expiry and a
success entry with a five-minute expiry, and an entry whose expiry is at
or before the current time is no longer served: the cache read misses,
and a call with no request in flight starts the resolution pipeline
afresh — in both the client-side and the server-side cache. -/
theorem cache_ttl_expiry :
    (∀ cache key value now,
      mapGet (ClientCache.setCachedValue cache key value now) key =
        some ⟨value, now + (if value.isError then 30 * 1000 else 5 * 60 * 1000)⟩) ∧
    (∀ cache key e now, mapGet cache key = some e → e.expiresAt ≤ now →
      (ClientCache.getCachedValue cache key now).1 = none) ∧
    (∀ st url sourceFeedUrl now fresh e, st.inFlight = [] →
      mapGet st.cache (ClientCache.getCacheKey url sourceFeedUrl) = some e →
      e.expiresAt ≤ now →
      (ClientCache.loadArticleContentStep st url sourceFeedUrl now fresh).1 =
        Coalesce.ResolveOutcome.startFetch fresh) ∧
    (∀ cache key value now,
      mapGet (Coalesce.setCachedValue cache key value now (Server.ttlMsFor value)
          Server.ARTICLE_RESULT_CACHE_MAX_ENTRIES) key =
        some ⟨value, now + (if value.isError then 30 * 1000 else 5 * 60 * 1000)⟩) ∧
    (∀ (cache : List (String × Coalesce.TimedCacheEntry Server.FetchArticleResult))
        key e now, mapGet cache key = some e → e.expiresAt ≤ now →
      (Coalesce.getCachedValue cache key now).1 = none) ∧
    (∀ st url sourceFeedUrl now fresh e, st.inFlight = [] →
      mapGet st.cache (Server.getArticleCacheKey url sourceFeedUrl) = some e →
      e.expiresAt ≤ now →
      (Server.fetchArticleContentStep st url sourceFeedUrl now fresh).1 =
        Coalesce.ResolveOutcome.startFetch fresh) := by
  refine ⟨?_, ?_, ?_, ?_, ?_, ?_⟩
  · intro cache key value now
    exact Coalesce.setCachedValue_get_self cache key value now _ _ (by decide)
  · intro cache key e now hmem hexp
    show (Coalesce.getCachedValue cache key now).1 = none
    rw [Coalesce.getCachedValue_expired hmem hexp]
  · intro st url sourceFeedUrl now fresh e hf hc hexp
    exact Coalesce.resolveStep_expired_restarts ClientCache.getCacheKey st url
      sourceFeedUrl now fresh e hf hc hexp
  · intro cache key value now
    exact Coalesce.setCachedValue_get_self cache key value now _ _ (by decide)
  · intro cache key e now hmem hexp
    rw [Coalesce.getCachedValue_expired hmem hexp]
  · intro st url sourceFeedUrl now fresh e hf hc hexp
    exact Coalesce.resolveStep_expired_restarts Server.getArticleCacheKey st url
      sourceFeedUrl now fresh e hf hc hexp

/-- C5 witness: concrete failure and success writes carry the
thirty-second and five-minute expiries, an expired concrete entry misses,
and an expired entry with an empty in-flight map restarts the pipeline,
on client and server alike. -/
theorem cache_ttl_expiry_witness :
    mapGet (ClientCache.setCachedValue [] "k" (.err ⟨"boom"⟩) 0) "k" =
      some ⟨.err ⟨"boom"⟩, 0 + (if (Server.FetchArticleResult.err ⟨"boom"⟩).isError
        then 30 * 1000 else 5 * 60 * 1000)⟩ ∧
    (ClientCache.getCachedValue [("k", ⟨.err ⟨"boom"⟩, 30000⟩)] "k" 30000).1 = none ∧
    (ClientCache.loadArticleContentStep
        ⟨[("::notaurl", ⟨.err ⟨"boom"⟩, 30000⟩)], []⟩ "notaurl" none 30000
        ⟨2, .err ⟨"z"⟩⟩).1 = Coalesce.ResolveOutcome.startFetch ⟨2, .err ⟨"z"⟩⟩ ∧
    mapGet (Coalesce.setCachedValue [] "k" (Server.FetchArticleResult.err ⟨"boom"⟩) 0
        (Server.ttlMsFor (.err ⟨"boom"⟩)) Server.ARTICLE_RESULT_CACHE_MAX_ENTRIES) "k" =
      some ⟨.err ⟨"boom"⟩, 0 + (if (Server.FetchArticleResult.err ⟨"boom"⟩).isError
        then 30 * 1000 else 5 * 60 * 1000)⟩ ∧
    (Coalesce.getCachedValue
        [("k", (⟨.err ⟨"boom"⟩, 30000⟩ : Coalesce.TimedCacheEntry Server.FetchArticleResult))]
        "k" 30000).1 = none ∧
    (Server.fetchArticleContentStep
        ⟨[("::notaurl", ⟨.err ⟨"boom"⟩, 30000⟩)], []⟩ "notaurl" none 30000
        ⟨2, .err ⟨"z"⟩⟩).1 = Coalesce.ResolveOutcome.startFetch ⟨2, .err ⟨"z"⟩⟩ := by
  refine ⟨?_, ?_, ?_, ?_, ?_, ?_⟩
  · exact cache_ttl_expiry.1 [] "k" (.err ⟨"boom"⟩) 0
  · exact cache_ttl_expiry.2.1 [("k", ⟨.err ⟨"boom"⟩, 30000⟩)] "k" ⟨.err ⟨"boom"⟩, 30000⟩
      30000 (by decide) (by decide)
  · exact cache_ttl_expiry.2.2.1 ⟨[("::notaurl", ⟨.err ⟨"boom"⟩, 30000⟩)], []⟩
      "notaurl" none 30000 ⟨2, .err ⟨"z"⟩⟩ ⟨.err ⟨"boom"⟩, 30000⟩ rfl (by decide) (by decide)
  · exact cache_ttl_expiry.2.2.2.1 [] "k" (.err ⟨"boom"⟩) 0
  · exact cache_ttl_expiry.2.2.2.2.1 [("k", ⟨.err ⟨"boom"⟩, 30000⟩)] "k"
      ⟨.err ⟨"boom"⟩, 30000⟩ 30000 (by decide) (by decide)
  · exact cache_ttl_expiry.2.2.2.2.2 ⟨[("::notaurl", ⟨.err ⟨"boom"⟩, 30000⟩)], []⟩
      "notaurl" none 30000 ⟨2, .err ⟨"z"⟩⟩ ⟨.err ⟨"boom"⟩, 30000⟩ rfl (by decide) (by decide)

end DevFeed

namespace DevFeed

/-! ### Stable-sort lemmas -/

theorem stableInsert_perm {α : Type} (le : α → α → Bool) (x : α) (l : List α) :
    List.Perm (stableInsert le x l) (x :: l) := by
  induction l with
  | nil => exact List.Perm.refl _
  | cons y rest ih =>
    unfold stableInsert
    by_cases h : le y x
    · rw [if_pos h]
      exact List.Perm.trans (List.Perm.cons y ih) (List.Perm.swap x y rest)
    · rw [if_neg h]

theorem mem_stableInsert {α : Type} (le : α → α → Bool) (x z : α) (l : List α) :
    z ∈ stableInsert le x l ↔ z = x ∨ z ∈ l := by
  rw [(stableInsert_perm le x l).mem_iff]
  simp

theorem stableSort_foldl_perm {α : Type} (le : α → α → Bool) (l : List α) :
    ∀ acc, List.Perm (l.foldl (fun acc x => stableInsert le x acc) acc) (acc ++ l) := by
  induction l with
  | nil => intro acc; simp
  | cons x rest ih =>
    intro acc
    rw [List.foldl_cons]
    refine List.Perm.trans (ih (stableInsert le x acc)) ?_
    refine List.Perm.trans (List.Perm.append_right rest (stableInsert_perm le x acc)) ?_
    have : List.Perm (acc ++ x :: rest) (x :: (acc ++ rest)) := List.perm_middle
    exact List.Perm.trans (by simp) this.symm

theorem stableSort_perm {α : Type} (le : α → α → Bool) (l : List α) :
    List.Perm (stableSort le l) l := by
  simpa using stableSort_foldl_perm le l []

theorem mem_stableSort {α : Type} (le : α → α → Bool) (l : List α) (x : α) :
    x ∈ stableSort le l ↔ x ∈ l :=
  (stableSort_perm le l).mem_iff

theorem pairwise_stableInsert {α : Type} (le : α → α → Bool)
    (htrans : ∀ a b c, le a b = true → le b c = true → le a c = true)
    (htot : ∀ a b, le a b = true ∨ le b a = true) (x : α) (l : List α)
    (h : List.Pairwise (fun a b => le a b = true) l) :
    List.Pairwise (fun a b => le a b = true) (stableInsert le x l) := by
  induction l with
  | nil => simp [stableInsert]
  | cons y rest ih =>
    obtain ⟨hy, hrest⟩ := List.pairwise_cons.mp h
    unfold stableInsert
    by_cases hle : le y x
    · rw [if_pos hle]
      rw [List.pairwise_cons]
      refine ⟨?_, ih hrest⟩
      intro z hz
      rcases (mem_stableInsert le x z rest).mp hz with rfl | hz'
      · exact hle
      · exact hy z hz'
    · rw [if_neg hle]
      have hxy : le x y = true := by
        rcases htot x y with h' | h'
        · exact h'
        · exact absurd h' hle
      rw [List.pairwise_cons]
      refine ⟨?_, h⟩
      intro z hz
      rcases List.mem_cons.mp hz with rfl | hz'
      · exact hxy
      · exact htrans x y z hxy (hy z hz')

theorem pairwise_stableSort {α : Type} (le : α → α → Bool)
    (htrans : ∀ a b c, le a b = true → le b c = true → le a c = true)
    (htot : ∀ a b, le a b = true ∨ le b a = true) (l : List α) :
    List.Pairwise (fun a b => le a b = true) (stableSort le l) := by
  have haux : ∀ (rest : List α) (acc : List α),
      List.Pairwise (fun a b => le a b = true) acc →
      List.Pairwise (fun a b => le a b = true)
        (rest.foldl (fun acc x => stableInsert le x acc) acc) := by
    intro rest
    induction rest with
    | nil => intro acc hacc; exact hacc
    | cons x t ih =>
      intro acc hacc
      rw [List.foldl_cons]
      exact ih _ (pairwise_stableInsert le htrans htot x acc hacc)
  exact haux l [] (by simp)

theorem mapSet_mem {β : Type} {m : List (String × β)} {k : String} {v : β}
    {p : String × β} (hp : p ∈ mapSet m k v) : p ∈ m ∨ p = (k, v) := by
  unfold mapSet at hp
  split at hp
  · obtain ⟨q, hq, hfq⟩ := List.mem_map.mp hp
    by_cases hqk : q.1 == k
    · rw [if_pos hqk] at hfq
      exact Or.inr hfq.symm
    · rw [if_neg hqk] at hfq
      exact Or.inl (hfq ▸ hq)
  · rcases List.mem_append.mp hp with h | h
    · exact Or.inl h
    · exact Or.inr (List.mem_singleton.mp h)

end DevFeed

namespace DevFeed.Ranking

theorem considerArticle_mem (dparse : String → Option Int)
    (sources : List FeedSource) (now : Int)
    (acc : List (String × RankedCandidate)) (article : Article)
    {kc : String × RankedCandidate}
    (hkc : kc ∈ considerArticle dparse sources now acc article) :
    kc ∈ acc ∨ ∃ source publishedAtMs,
      sourceByIdGet sources article.sourceId = some source ∧
      shouldKeepByLookback dparse article source now = true ∧
      dparse article.publishedAt = some publishedAtMs ∧
      kc = (dedupeKeyFor article,
        ⟨article, source, scoreArticleForDeveloperFeed dparse article source now,
          publishedAtMs⟩) := by
  unfold considerArticle at hkc
  cases hs : sourceByIdGet sources article.sourceId with
  | none =>
    rw [hs] at hkc
    exact Or.inl hkc
  | some source =>
    rw [hs] at hkc
    dsimp only at hkc
    by_cases hkeep : shouldKeepByLookback dparse article source now
    · rw [hkeep] at hkc
      simp only [Bool.not_true, Bool.false_eq_true, if_false] at hkc
      cases hp : dparse article.publishedAt with
      | none =>
        rw [hp] at hkc
        exact Or.inl hkc
      | some publishedAtMs =>
        rw [hp] at hkc
        dsimp only at hkc
        have hnew :
            kc ∈ acc ∨ kc = (dedupeKeyFor article,
              ⟨article, source,
                scoreArticleForDeveloperFeed dparse article source now,
                publishedAtMs⟩) := by
          rcases hmg : mapGet acc (dedupeKeyFor article) with _ | existing
          · rw [hmg] at hkc
            exact mapSet_mem hkc
          · rw [hmg] at hkc
            dsimp only at hkc
            split at hkc
            · exact mapSet_mem hkc
            · split at hkc
              · exact mapSet_mem hkc
              · exact Or.inl hkc
        rcases hnew with h | h
        · exact Or.inl h
        · exact Or.inr ⟨source, publishedAtMs, rfl, hkeep, rfl, h⟩
    · rw [Bool.not_eq_true] at hkeep
      rw [hkeep] at hkc
      simp only [Bool.not_false, if_true] at hkc
      exact Or.inl hkc

theorem foldl_considerArticle_good (dparse : String → Option Int)
    (sources : List FeedSource) (now : Int) :
    ∀ (articles : List Article) (acc : List (String × RankedCandidate)),
      (∀ kc ∈ acc, GoodCandidatePair dparse sources now kc) →
      ∀ kc ∈ articles.foldl (considerArticle dparse sources now) acc,
        GoodCandidatePair dparse sources now kc := by
  intro articles
  induction articles with
  | nil => intro acc hacc; exact hacc
  | cons a rest ih =>
    intro acc hacc kc hkc
    rw [List.foldl_cons] at hkc
    refine ih _ ?_ kc hkc
    intro kc' hkc'
    rcases considerArticle_mem dparse sources now acc a hkc' with h | ⟨src, ms, h1, h2, h3, hEq⟩
    · exact hacc kc' h
    · subst hEq
      exact ⟨h1, h2, h3, rfl, rfl⟩

theorem considerArticle_noDupKeys (dparse : String → Option Int)
    (sources : List FeedSource) (now : Int)
    {acc : List (String × RankedCandidate)} (h : NoDupKeys acc)
    (article : Article) :
    NoDupKeys (considerArticle dparse sources now acc article) := by
  unfold considerArticle
  cases sourceByIdGet sources article.sourceId with
  | none => exact h
  | some source =>
    dsimp only
    split
    · exact h
    · cases dparse article.publishedAt with
      | none => exact h
      | some ms =>
        dsimp only
        cases mapGet acc (dedupeKeyFor article) with
        | none => exact noDupKeys_set h _ _
        | some existing =>
          dsimp only
          split
          · exact noDupKeys_set h _ _
          · split
            · exact noDupKeys_set h _ _
            · exact h

theorem foldl_considerArticle_noDupKeys (dparse : String → Option Int)
    (sources : List FeedSource) (now : Int) :
    ∀ (articles : List Article) (acc : List (String × RankedCandidate)),
      NoDupKeys acc →
      NoDupKeys (articles.foldl (considerArticle dparse sources now) acc) := by
  intro articles
  induction articles with
  | nil => intro acc hacc; exact hacc
  | cons a rest ih =>
    intro acc hacc
    rw [List.foldl_cons]
    exact ih _ (considerArticle_noDupKeys dparse sources now hacc a)

theorem clamp_bounds (x lo hi : ℚ) (h : lo ≤ hi) :
    lo ≤ clamp x lo hi ∧ clamp x lo hi ≤ hi := by
  unfold clamp
  exact ⟨le_min h (le_max_left lo x), min_le_left hi _⟩

theorem score_bounds (dparse : String → Option Int) (article : Article)
    (source : FeedSource) (now : Int)
    (hkeep : shouldKeepByLookback dparse article source now = true) :
    0 ≤ scoreArticleForDeveloperFeed dparse article source now ∧
      scoreArticleForDeveloperFeed dparse article source now ≤ 100 := by
  unfold shouldKeepByLookback at hkeep
  unfold scoreArticleForDeveloperFeed
  cases hage : ageInDays dparse article.publishedAt now with
  | none =>
    rw [hage] at hkeep
    cases hkeep
  | some ageDays =>
    exact clamp_bounds _ 0 100 (by norm_num)

theorem buildRanked_good (dparse : String → Option Int) (articles : List Article)
    (sources : List FeedSource) (now : Int) :
    ∀ c ∈ buildRankedCandidates dparse articles sources now,
      sourceByIdGet sources c.article.sourceId = some c.source ∧
      shouldKeepByLookback dparse c.article c.source now = true ∧
      dparse c.article.publishedAt = some c.publishedAtMs ∧
      c.score = scoreArticleForDeveloperFeed dparse c.article c.source now := by
  intro c hc
  rw [buildRankedCandidates, mem_stableSort] at hc
  obtain ⟨kc, hkc, hsnd⟩ := List.mem_map.mp hc
  have hg := foldl_considerArticle_good dparse sources now articles []
    (fun kc h => absurd h (List.not_mem_nil kc)) kc hkc
  obtain ⟨h1, h2, h3, h4, h5⟩ := hg
  rw [← hsnd]
  exact ⟨h1, h2, h3, h4⟩

theorem rankLe_total (a b : RankedCandidate) :
    rankLe a b = true ∨ rankLe b a = true := by
  unfold rankLe
  by_cases h : a.publishedAtMs = b.publishedAtMs
  · rw [if_neg (fun hn => hn h), if_neg (fun hn => hn h.symm)]
    simp only [decide_eq_true_eq]
    exact le_total b.score a.score
  · rw [if_pos h, if_pos (Ne.symm h)]
    simp only [decide_eq_true_eq]
    exact le_total b.publishedAtMs a.publishedAtMs

theorem rankLe_trans (a b c : RankedCandidate) (h1 : rankLe a b = true)
    (h2 : rankLe b c = true) : rankLe a c = true := by
  unfold rankLe at h1 h2 ⊢
  by_cases hab : a.publishedAtMs = b.publishedAtMs
  · rw [if_neg (fun hn => hn hab)] at h1
    simp only [decide_eq_true_eq] at h1
    by_cases hbc : b.publishedAtMs = c.publishedAtMs
    · rw [if_neg (fun hn => hn hbc)] at h2
      simp only [decide_eq_true_eq] at h2
      rw [if_neg (fun hn => hn (hab.trans hbc))]
      simp only [decide_eq_true_eq]
      exact le_trans h2 h1
    · rw [if_pos hbc] at h2
      simp only [decide_eq_true_eq] at h2
      have hlt : c.publishedAtMs < a.publishedAtMs := by
        rw [hab]
        exact lt_of_le_of_ne h2 (Ne.symm hbc)
      rw [if_pos (Ne.symm (ne_of_lt hlt))]
      simp only [decide_eq_true_eq]
      exact le_of_lt hlt
  · rw [if_pos hab] at h1
    simp only [decide_eq_true_eq] at h1
    have hlt1 : b.publishedAtMs < a.publishedAtMs :=
      lt_of_le_of_ne h1 (Ne.symm hab)
    by_cases hbc : b.publishedAtMs = c.publishedAtMs
    · have hlt : c.publishedAtMs < a.publishedAtMs := hbc ▸ hlt1
      rw [if_pos (Ne.symm (ne_of_lt hlt))]
      simp only [decide_eq_true_eq]
      exact le_of_lt hlt
    · rw [if_pos hbc] at h2
      simp only [decide_eq_true_eq] at h2
      have hlt2 : c.publishedAtMs < b.publishedAtMs :=
        lt_of_le_of_ne h2 (Ne.symm hbc)
      have hlt : c.publishedAtMs < a.publishedAtMs := lt_trans hlt2 hlt1
      rw [if_pos (Ne.symm (ne_of_lt hlt))]
      simp only [decide_eq_true_eq]
      exact le_of_lt hlt

theorem buildRanked_pairwise (dparse : String → Option Int)
    (articles : List Article) (sources : List FeedSource) (now : Int) :
    List.Pairwise (fun a b => rankLe a b = true)
      (buildRankedCandidates dparse articles sources now) := by
  rw [buildRankedCandidates]
  exact pairwise_stableSort rankLe rankLe_trans rankLe_total _

end DevFeed.Ranking

namespace DevFeed

/-- C9: every score of a candidate that passes the recency gate is clamped
to the interval from zero to one hundred, so every ranked candidate built
during deduplication carries a score in that range and the negative
sentinel branch for unparseable dates is unreachable there. -/
theorem candidate_scores_clamped :
    (∀ (dparse : String → Option Int) (article : Ranking.Article)
        (source : Ranking.FeedSource) (now : Int),
      Ranking.shouldKeepByLookback dparse article source now = true →
      0 ≤ Ranking.scoreArticleForDeveloperFeed dparse article source now ∧
        Ranking.scoreArticleForDeveloperFeed dparse article source now ≤ 100) ∧
    (∀ (dparse : String → Option Int) (articles : List Ranking.Article)
        (sources : List Ranking.FeedSource) (now : Int)
        (c : Ranking.RankedCandidate),
      c ∈ Ranking.buildRankedCandidates dparse articles sources now →
      0 ≤ c.score ∧ c.score ≤ 100) := by
  constructor
  · intro dparse article source now hkeep
    exact Ranking.score_bounds dparse article source now hkeep
  · intro dparse articles sources now c hc
    obtain ⟨_, hkeep, _, hscore⟩ :=
      Ranking.buildRanked_good dparse articles sources now c hc
    rw [hscore]
    exact Ranking.score_bounds dparse c.article c.source now hkeep

/-- C9 witness: the single candidate built from one concrete article has
its score inside the clamped range. -/
theorem candidate_scores_clamped_witness :
    0 ≤ (⟨⟨"a1", "Old Post", "s", "S", "", none,
          "https://example.com/old-post", "P", "", [], none, none⟩,
        ⟨"s", "S", "https://example.com/feed", "https://example.com", "",
          some .core, some 14, none, none, none, none, none⟩,
        16, 0⟩ : Ranking.RankedCandidate).score ∧
      (⟨⟨"a1", "Old Post", "s", "S", "", none,
          "https://example.com/old-post", "P", "", [], none, none⟩,
        ⟨"s", "S", "https://example.com/feed", "https://example.com", "",
          some .core, some 14, none, none, none, none, none⟩,
        16, 0⟩ : Ranking.RankedCandidate).score ≤ 100 :=
  candidate_scores_clamped.2
    (fun s => if s = "P" then (some 0 : Option Int) else none)
    [⟨"a1", "Old Post", "s", "S", "", none, "https://example.com/old-post",
      "P", "", [], none, none⟩]
    [⟨"s", "S", "https://example.com/feed", "https://example.com", "",
      some .core, some 14, none, none, none, none, none⟩]
    864000000
    ⟨⟨"a1", "Old Post", "s", "S", "", none, "https://example.com/old-post",
        "P", "", [], none, none⟩,
      ⟨"s", "S", "https://example.com/feed", "https://example.com", "",
        some .core, some 14, none, none, none, none, none⟩,
      16, 0⟩
    (by decide)

end DevFeed

namespace DevFeed

/-- C4: adjacent output articles are ordered by published timestamp
descending, with score descending as the tie-breaker among equal
timestamps: for each adjacent pair both dates re-parse and both sources
resolve, and either the earlier article is strictly newer or the
timestamps agree and the earlier article scores at least as high. -/
theorem output_order_recency_then_score :
    ∀ (dparse : String → Option Int) (articles : List Ranking.Article)
      (sources : List Ranking.FeedSource) (options : Ranking.RankOptions),
      List.Chain' (fun x y : Ranking.Article =>
          ∃ tx ty sx sy,
            dparse x.publishedAt = some tx ∧ dparse y.publishedAt = some ty ∧
            Ranking.sourceByIdGet sources x.sourceId = some sx ∧
            Ranking.sourceByIdGet sources y.sourceId = some sy ∧
            (ty < tx ∨ (tx = ty ∧
              Ranking.scoreArticleForDeveloperFeed dparse y sy options.now ≤
                Ranking.scoreArticleForDeveloperFeed dparse x sx options.now)))
        (Ranking.rankAndFilterArticlesForDeveloperFeed dparse articles sources
          options) := by
  intro dparse articles sources options
  have hpair := Ranking.buildRanked_pairwise dparse articles sources options.now
  have hgood := Ranking.buildRanked_good dparse articles sources options.now
  have hp2 : List.Pairwise (fun x y : Ranking.Article =>
      ∃ tx ty sx sy,
        dparse x.publishedAt = some tx ∧ dparse y.publishedAt = some ty ∧
        Ranking.sourceByIdGet sources x.sourceId = some sx ∧
        Ranking.sourceByIdGet sources y.sourceId = some sy ∧
        (ty < tx ∨ (tx = ty ∧
          Ranking.scoreArticleForDeveloperFeed dparse y sy options.now ≤
            Ranking.scoreArticleForDeveloperFeed dparse x sx options.now)))
      ((Ranking.buildRankedCandidates dparse articles sources
          options.now).map (·.article)) := by
    rw [List.pairwise_map]
    refine hpair.imp_of_mem ?_
    intro c d hc hd hle
    obtain ⟨hcs, hck, hct, hcsc⟩ := hgood c hc
    obtain ⟨hds, hdk, hdt, hdsc⟩ := hgood d hd
    refine ⟨c.publishedAtMs, d.publishedAtMs, c.source, d.source,
      hct, hdt, hcs, hds, ?_⟩
    rw [Ranking.rankLe] at hle
    by_cases ht : c.publishedAtMs = d.publishedAtMs
    · right
      refine ⟨ht, ?_⟩
      rw [if_neg (fun hn => hn ht)] at hle
      simp only [decide_eq_true_eq] at hle
      rw [← hcsc, ← hdsc]
      exact hle
    · left
      rw [if_pos ht] at hle
      simp only [decide_eq_true_eq] at hle
      exact lt_of_le_of_ne hle (Ne.symm ht)
  rw [Ranking.rankAndFilterArticlesForDeveloperFeed]
  cases options.maxTotal with
  | none => exact hp2.chain'
  | some maxTotal =>
    dsimp only
    by_cases hmt : (0 : Int) ≤ maxTotal
    · rw [if_pos hmt]
      exact (hp2.sublist (List.take_sublist _ _)).chain'
    · rw [if_neg hmt]
      exact hp2.chain'

end DevFeed

namespace DevFeed.Ranking

theorem considerArticle_base (dparse : String → Option Int)
    (sources : List FeedSource) (now : Int) (a : Article) (src : FeedSource)
    (t : Int) (hs : sourceByIdGet sources a.sourceId = some src)
    (hk : shouldKeepByLookback dparse a src now = true)
    (hp : dparse a.publishedAt = some t) :
    considerArticle dparse sources now [] a =
      [(dedupeKeyFor a, ⟨a, src, scoreArticleForDeveloperFeed dparse a src now,
        t⟩)] := by
  rw [considerArticle, hs]
  simp only [hk, Bool.not_true, Bool.false_eq_true, if_false]
  rw [hp]
  rfl

theorem considerArticle_second (dparse : String → Option Int)
    (sources : List FeedSource) (now : Int) (a2 : Article) (src2 : FeedSource)
    (t2 : Int) (k1 : String) (c1 : RankedCandidate)
    (hs : sourceByIdGet sources a2.sourceId = some src2)
    (hk : shouldKeepByLookback dparse a2 src2 now = true)
    (hp : dparse a2.publishedAt = some t2)
    (hkey : dedupeKeyFor a2 = k1) :
    considerArticle dparse sources now [(k1, c1)] a2 =
      (if c1.score < scoreArticleForDeveloperFeed dparse a2 src2 now then
        [(dedupeKeyFor a2,
          ⟨a2, src2, scoreArticleForDeveloperFeed dparse a2 src2 now, t2⟩)]
      else if scoreArticleForDeveloperFeed dparse a2 src2 now == c1.score &&
          c1.publishedAtMs < t2 then
        [(dedupeKeyFor a2,
          ⟨a2, src2, scoreArticleForDeveloperFeed dparse a2 src2 now, t2⟩)]
      else [(k1, c1)]) := by
  rw [considerArticle, hs]
  simp only [hk, Bool.not_true, Bool.false_eq_true, if_false]
  rw [hp]
  dsimp only
  have hget : mapGet [(k1, c1)] (dedupeKeyFor a2) = some c1 := by
    rw [mapGet_cons, if_pos hkey]
  rw [hget]
  dsimp only
  have hset : mapSet [(k1, c1)] (dedupeKeyFor a2)
      ⟨a2, src2, scoreArticleForDeveloperFeed dparse a2 src2 now, t2⟩ =
      [(dedupeKeyFor a2,
        ⟨a2, src2, scoreArticleForDeveloperFeed dparse a2 src2 now, t2⟩)] := by
    rw [mapSet, if_pos (by rw [hget]; exact rfl)]
    simp only [List.map_cons, List.map_nil]
    rw [if_pos (by simp [hkey])]
  by_cases h1 : c1.score < scoreArticleForDeveloperFeed dparse a2 src2 now
  · rw [if_pos h1, if_pos h1, hset]
  · rw [if_neg h1, if_neg h1]
    by_cases h2 : (scoreArticleForDeveloperFeed dparse a2 src2 now ==
        c1.score && decide (c1.publishedAtMs < t2)) = true
    · rw [if_pos h2, if_pos h2, hset]
    · rw [if_neg h2, if_neg h2]

theorem rank_pair_eval (dparse : String → Option Int) (a1 a2 : Article)
    (sources : List FeedSource) (now : Int) (src1 src2 : FeedSource)
    (t1 t2 : Int)
    (hs1 : sourceByIdGet sources a1.sourceId = some src1)
    (hs2 : sourceByIdGet sources a2.sourceId = some src2)
    (hk1 : shouldKeepByLookback dparse a1 src1 now = true)
    (hk2 : shouldKeepByLookback dparse a2 src2 now = true)
    (hp1 : dparse a1.publishedAt = some t1)
    (hp2 : dparse a2.publishedAt = some t2)
    (hkey : dedupeKeyFor a1 = dedupeKeyFor a2) :
    rankAndFilterArticlesForDeveloperFeed dparse [a1, a2] sources ⟨now, none⟩ =
      (if scoreArticleForDeveloperFeed dparse a1 src1 now <
          scoreArticleForDeveloperFeed dparse a2 src2 now then [a2]
      else if scoreArticleForDeveloperFeed dparse a2 src2 now ==
          scoreArticleForDeveloperFeed dparse a1 src1 now && t1 < t2 then [a2]
      else [a1]) := by
  rw [rankAndFilterArticlesForDeveloperFeed, buildRankedCandidates]
  dsimp only
  rw [List.foldl_cons, List.foldl_cons, List.foldl_nil]
  rw [considerArticle_base dparse sources now a1 src1 t1 hs1 hk1 hp1]
  rw [considerArticle_second dparse sources now a2 src2 t2 _ _ hs2 hk2 hp2
    hkey.symm]
  by_cases h1 : scoreArticleForDeveloperFeed dparse a1 src1 now <
      scoreArticleForDeveloperFeed dparse a2 src2 now
  · rw [if_pos h1, if_pos h1]
    rfl
  · rw [if_neg h1, if_neg h1]
    by_cases h2 : (scoreArticleForDeveloperFeed dparse a2 src2 now ==
        scoreArticleForDeveloperFeed dparse a1 src1 now &&
          decide (t1 < t2)) = true
    · rw [if_pos h2, if_pos h2]
      rfl
    · rw [if_neg h2, if_neg h2]
      rfl

end DevFeed.Ranking

namespace DevFeed.Ranking

theorem output_keys_distinct (dparse : String → Option Int)
    (articles : List Article) (sources : List FeedSource)
    (options : RankOptions) :
    List.Pairwise (fun x y : Article => dedupeKeyFor x ≠ dedupeKeyFor y)
      (rankAndFilterArticlesForDeveloperFeed dparse articles sources options) := by
  have hnd : NoDupKeys
      (articles.foldl (considerArticle dparse sources options.now) []) :=
    foldl_considerArticle_noDupKeys dparse sources options.now articles []
      noDupKeys_nil
  have hgoodkey : ∀ kc ∈ articles.foldl (considerArticle dparse sources
      options.now) [], kc.1 = dedupeKeyFor kc.2.article := by
    intro kc hkc
    have hg := foldl_considerArticle_good dparse sources options.now articles
      [] (fun kc h => absurd h (List.not_mem_nil kc)) kc hkc
    obtain ⟨_, _, _, _, h5⟩ := hg
    exact h5
  have hpw : List.Pairwise (fun p q : String × RankedCandidate => p.1 ≠ q.1)
      (articles.foldl (considerArticle dparse sources options.now) []) :=
    List.pairwise_map.mp hnd
  have hpw2 : List.Pairwise (fun p q : String × RankedCandidate =>
      dedupeKeyFor p.2.article ≠ dedupeKeyFor q.2.article)
      (articles.foldl (considerArticle dparse sources options.now) []) := by
    refine hpw.imp_of_mem ?_
    intro p q hp hq hne
    rw [← hgoodkey p hp, ← hgoodkey q hq]
    exact hne
  have hpw3 : List.Pairwise (fun c d : RankedCandidate =>
      dedupeKeyFor c.article ≠ dedupeKeyFor d.article)
      ((articles.foldl (considerArticle dparse sources options.now) []).map
        Prod.snd) :=
    List.pairwise_map.mpr hpw2
  have hpw4 : List.Pairwise (fun c d : RankedCandidate =>
      dedupeKeyFor c.article ≠ dedupeKeyFor d.article)
      (buildRankedCandidates dparse articles sources options.now) := by
    rw [buildRankedCandidates]
    exact (List.Perm.pairwise_iff (fun h => h.symm)
      (stableSort_perm rankLe _)).mpr hpw3
  have hpw5 : List.Pairwise (fun x y : Article =>
      dedupeKeyFor x ≠ dedupeKeyFor y)
      ((buildRankedCandidates dparse articles sources options.now).map
        (·.article)) :=
    List.pairwise_map.mpr hpw4
  rw [rankAndFilterArticlesForDeveloperFeed]
  cases options.maxTotal with
  | none => exact hpw5
  | some maxTotal =>
    dsimp only
    by_cases hmt : (0 : Int) ≤ maxTotal
    · rw [if_pos hmt]
      exact hpw5.sublist (List.take_sublist _ _)
    · rw [if_neg hmt]
      exact hpw5

end DevFeed.Ranking

namespace DevFeed

/-- C3: the output never carries two articles with the same deduplication
key, and on a two-article input whose keys coincide exactly one survives:
the higher-scored one, with ties broken in favour of the more recent
parsed timestamp. -/
theorem dedup_keeps_best :
    (∀ (dparse : String → Option Int) (articles : List Ranking.Article)
        (sources : List Ranking.FeedSource) (options : Ranking.RankOptions),
      List.Pairwise
        (fun x y : Ranking.Article =>
          Ranking.dedupeKeyFor x ≠ Ranking.dedupeKeyFor y)
        (Ranking.rankAndFilterArticlesForDeveloperFeed dparse articles sources
          options)) ∧
    (∀ (dparse : String → Option Int) (a1 a2 : Ranking.Article)
        (sources : List Ranking.FeedSource) (now : Int)
        (src1 src2 : Ranking.FeedSource) (t1 t2 : Int),
      Ranking.sourceByIdGet sources a1.sourceId = some src1 →
      Ranking.sourceByIdGet sources a2.sourceId = some src2 →
      Ranking.shouldKeepByLookback dparse a1 src1 now = true →
      Ranking.shouldKeepByLookback dparse a2 src2 now = true →
      dparse a1.publishedAt = some t1 →
      dparse a2.publishedAt = some t2 →
      Ranking.dedupeKeyFor a1 = Ranking.dedupeKeyFor a2 →
      (Ranking.rankAndFilterArticlesForDeveloperFeed dparse [a1, a2] sources
          ⟨now, none⟩ = [a1] ∨
        Ranking.rankAndFilterArticlesForDeveloperFeed dparse [a1, a2] sources
          ⟨now, none⟩ = [a2]) ∧
      (Ranking.scoreArticleForDeveloperFeed dparse a2 src2 now <
          Ranking.scoreArticleForDeveloperFeed dparse a1 src1 now →
        Ranking.rankAndFilterArticlesForDeveloperFeed dparse [a1, a2] sources
          ⟨now, none⟩ = [a1]) ∧
      (Ranking.scoreArticleForDeveloperFeed dparse a1 src1 now <
          Ranking.scoreArticleForDeveloperFeed dparse a2 src2 now →
        Ranking.rankAndFilterArticlesForDeveloperFeed dparse [a1, a2] sources
          ⟨now, none⟩ = [a2]) ∧
      (Ranking.scoreArticleForDeveloperFeed dparse a1 src1 now =
          Ranking.scoreArticleForDeveloperFeed dparse a2 src2 now →
        t2 < t1 →
        Ranking.rankAndFilterArticlesForDeveloperFeed dparse [a1, a2] sources
          ⟨now, none⟩ = [a1]) ∧
      (Ranking.scoreArticleForDeveloperFeed dparse a1 src1 now =
          Ranking.scoreArticleForDeveloperFeed dparse a2 src2 now →
        t1 < t2 →
        Ranking.rankAndFilterArticlesForDeveloperFeed dparse [a1, a2] sources
          ⟨now, none⟩ = [a2])) := by
  constructor
  · intro dparse articles sources options
    exact Ranking.output_keys_distinct dparse articles sources options
  · intro dparse a1 a2 sources now src1 src2 t1 t2 hs1 hs2 hk1 hk2 hp1 hp2 hkey
    have heval := Ranking.rank_pair_eval dparse a1 a2 sources now src1 src2
      t1 t2 hs1 hs2 hk1 hk2 hp1 hp2 hkey
    rw [heval]
    refine ⟨?_, ?_, ?_, ?_, ?_⟩
    · split_ifs <;> simp
    · intro hlt
      rw [if_neg (lt_asymm hlt), if_neg ?_]
      simp only [Bool.and_eq_true, beq_iff_eq, decide_eq_true_eq, not_and]
      intro he
      exact absurd he (ne_of_lt hlt)
    · intro hlt
      rw [if_pos hlt]
    · intro heq hlt
      rw [if_neg (by rw [heq]; exact lt_irrefl _), if_neg ?_]
      simp only [Bool.and_eq_true, beq_iff_eq, decide_eq_true_eq, not_and]
      intro _ hc
      exact lt_asymm hlt hc
    · intro heq hlt
      rw [if_neg (by rw [heq]; exact lt_irrefl _), if_pos ?_]
      simp only [Bool.and_eq_true, beq_iff_eq, decide_eq_true_eq]
      exact ⟨heq.symm, hlt⟩

/-- C3 witness: two concrete articles whose links differ only by a
tracking parameter share a deduplication key, and the ranking keeps
exactly one of them. -/
theorem dedup_keeps_best_witness :
    Ranking.rankAndFilterArticlesForDeveloperFeed
        (fun s => if s = "P" then (some 0 : Option Int) else none)
        [⟨"a1", "Old Post", "s", "S", "", none,
            "https://example.com/post?utm_source=rss", "P", "", [], none,
            none⟩,
          ⟨"a2", "Old Post", "s", "S", "", none, "https://example.com/post",
            "P", "", [], none, none⟩]
        [⟨"s", "S", "https://example.com/feed", "https://example.com", "",
          some .core, some 14, none, none, none, none, none⟩]
        ⟨864000000, none⟩ =
      [⟨"a1", "Old Post", "s", "S", "", none,
        "https://example.com/post?utm_source=rss", "P", "", [], none,
        none⟩] ∨
    Ranking.rankAndFilterArticlesForDeveloperFeed
        (fun s => if s = "P" then (some 0 : Option Int) else none)
        [⟨"a1", "Old Post", "s", "S", "", none,
            "https://example.com/post?utm_source=rss", "P", "", [], none,
            none⟩,
          ⟨"a2", "Old Post", "s", "S", "", none, "https://example.com/post",
            "P", "", [], none, none⟩]
        [⟨"s", "S", "https://example.com/feed", "https://example.com", "",
          some .core, some 14, none, none, none, none, none⟩]
        ⟨864000000, none⟩ =
      [⟨"a2", "Old Post", "s", "S", "", none, "https://example.com/post",
        "P", "", [], none, none⟩] :=
  (dedup_keeps_best.2
    (fun s => if s = "P" then (some 0 : Option Int) else none)
    ⟨"a1", "Old Post", "s", "S", "", none,
      "https://example.com/post?utm_source=rss", "P", "", [], none, none⟩
    ⟨"a2", "Old Post", "s", "S", "", none, "https://example.com/post", "P",
      "", [], none, none⟩
    [⟨"s", "S", "https://example.com/feed", "https://example.com", "",
      some .core, some 14, none, none, none, none, none⟩]
    864000000
    ⟨"s", "S", "https://example.com/feed", "https://example.com", "",
      some .core, some 14, none, none, none, none, none⟩
    ⟨"s", "S", "https://example.com/feed", "https://example.com", "",
      some .core, some 14, none, none, none, none, none⟩
    0 0 (by decide) (by decide) (by decide) (by decide) (by decide)
    (by decide) (by decide)).1

end DevFeed

namespace DevFeed.Render

theorem rNodeTagsAllowed_if (b : Bool) (x : String) :
    rNodeTagsAllowed (if b then RNode.nullNode else RNode.text x) = true := by
  cases b <;> rfl

theorem replaceWindowHint_allowed (s : String) :
    rNodeTagsAllowed (replaceWindowHintWithIcon s) = true := by
  rw [replaceWindowHintWithIcon]
  cases h : findPhraseFrom 0 s.data with
  | none => rfl
  | some j =>
    dsimp only
    simp only [rNodeTagsAllowed, rNodeListTagsAllowed, rNodeTagsAllowed_if,
      Bool.and_true, Bool.true_and]

mutual

theorem toReactNode_tags_allowed (ancestors : List String) :
    ∀ n : DomNode, rNodeTagsAllowed (toReactNode ancestors n) = true
  | .text s => by
    rw [toReactNode]
    split
    · rfl
    · split
      · split
        · rfl
        · split
          · rfl
          · split <;> rfl
      · exact replaceWindowHint_allowed s
  | .other => by
    rw [toReactNode]
    rfl
  | .element rawTag attrs children => by
    rw [toReactNode]
    dsimp only
    split
    · rfl
    · split
      · exact toReactNodeList_tags_allowed (jsToLower rawTag :: ancestors)
          children
      · next hallow =>
        have hc : ALLOWED_TAGS.contains (jsToLower rawTag) = true := by
          simpa using hallow
        split
        · rfl
        · split
          · rw [rNodeTagsAllowed, hc]
            rfl
          · rw [rNodeTagsAllowed, hc,
              toReactNodeList_tags_allowed (jsToLower rawTag :: ancestors)
                children]
            rfl

theorem toReactNodeList_tags_allowed (ancestors : List String) :
    ∀ l : List DomNode, rNodeListTagsAllowed (toReactNodeList ancestors l) = true
  | [] => by
    rw [toReactNodeList]
    rfl
  | n :: rest => by
    rw [toReactNodeList, rNodeListTagsAllowed,
      toReactNode_tags_allowed ancestors n,
      toReactNodeList_tags_allowed ancestors rest]
    rfl

end

theorem toReactNode_unwraps (ancestors : List String) (rawTag : String)
    (attrs : List (String × String)) (children : List DomNode)
    (hscript : (jsToLower rawTag == "script" || jsToLower rawTag == "style") =
      false)
    (hallow : ALLOWED_TAGS.contains (jsToLower rawTag) = false) :
    toReactNode ancestors (.element rawTag attrs children) =
      .fragment (toReactNodeList (jsToLower rawTag :: ancestors) children) := by
  rw [toReactNode]
  dsimp only
  rw [hscript]
  simp only [Bool.false_eq_true, if_false]
  rw [hallow]
  rfl

theorem toReactNode_drops_script (ancestors : List String) (rawTag : String)
    (attrs : List (String × String)) (children : List DomNode)
    (hscript : (jsToLower rawTag == "script" || jsToLower rawTag == "style") =
      true) :
    toReactNode ancestors (.element rawTag attrs children) = .nullNode := by
  rw [toReactNode]
  dsimp only
  rw [hscript]
  rfl

end DevFeed.Render

namespace DevFeed

/-- C7: the transform only ever emits element nodes whose tags are in the
fixed allow-list; a non-allow-listed tag other than script or style is
unwrapped into a fragment of its transformed children; a script or style
element collapses to the null node; and transforming the concrete
document with a script followed by a paragraph yields no script node and
one paragraph node containing the text. -/
theorem transform_tag_allowlist :
    (∀ (ancestors : List String) (n : Render.DomNode),
      Render.rNodeTagsAllowed (Render.toReactNode ancestors n) = true) ∧
    (∀ (ancestors : List String) (rawTag : String)
        (attrs : List (String × String)) (children : List Render.DomNode),
      (jsToLower rawTag == "script" || jsToLower rawTag == "style") = false →
      Render.ALLOWED_TAGS.contains (jsToLower rawTag) = false →
      Render.toReactNode ancestors (.element rawTag attrs children) =
        .fragment (Render.toReactNodeList (jsToLower rawTag :: ancestors)
          children)) ∧
    (∀ (ancestors : List String) (rawTag : String)
        (attrs : List (String × String)) (children : List Render.DomNode),
      (jsToLower rawTag == "script" || jsToLower rawTag == "style") = true →
      Render.toReactNode ancestors (.element rawTag attrs children) =
        .nullNode) ∧
    (Render.toReactNodeList []
        [.element "script" [] [.text "x"], .element "p" [] [.text "ok"]] =
      [.nullNode, .elem "p" [] [.text "ok"]] ∧
    Render.rNodeListHasTag "script"
        (Render.toReactNodeList []
          [.element "script" [] [.text "x"], .element "p" [] [.text "ok"]]) =
      false) := by
  refine ⟨Render.toReactNode_tags_allowed, Render.toReactNode_unwraps,
    Render.toReactNode_drops_script, ?_, ?_⟩
  · rfl
  · rfl

/-- C7 witness: a concrete non-allow-listed element is unwrapped into a
fragment of its transformed children. -/
theorem transform_tag_allowlist_witness :
    Render.toReactNode [] (.element "center" [] [.text "hi"]) =
      .fragment (Render.toReactNodeList [jsToLower "center"]
        [.text "hi"]) :=
  transform_tag_allowlist.2.1 [] "center" [] [.text "hi"] (by decide)
    (by decide)

end DevFeed
